import Mathlib

/-!
# Verification of the L-systems engine (NeoVand/lsystems)

Shallow embedding, in Lean 4, of the derivation, parsing, expression and
turtle-interpretation code of the repository, together with theorems that
settle the claims of the specification against that embedding.

Modelling conventions, used throughout:

* JavaScript numbers are modelled as exact rationals (`ℚ`).  The claims
  treated here concern control flow, counting, error signalling and exact
  restores of saved values; none of them depends on IEEE-754 rounding.
* Transcendental operations (`Math.sin`, `Math.cos`, `Math.pow`,
  `Math.log`, JS `%`, and the numeric bodies of the expression builtins)
  have no exact rational counterpart, so they are taken as *parameters*
  of the embedding; every theorem quantifies over them, hence holds for
  any interpretation of those operations.
* `u32` device arithmetic wraps modulo `2 ^ 32` where the shaders add.
* Fallible code returns `Except`/`Option`; a thrown JS exception is an
  `Except.error`.
-/

/-! ## §1  Expression evaluator (`src/lib/grammar/expression.ts`)

`Expression` mirrors the AST type of `expression.ts`; `evaluateExpression`
mirrors the evaluator.  Evaluation order (left before right, the builtin
lookup before the arguments) follows the source.
-/

/-- Binary operators of `expression.ts` (`BinaryOp`). -/
inductive BinaryOp
  | add | sub | mul | div | mod | pow
  | lt | gt | le | ge | eq | ne
  | land | lor
deriving DecidableEq, Repr

/-- Unary operators of `expression.ts` (`UnaryOp`). -/
inductive UnaryOp
  | neg | lnot
deriving DecidableEq, Repr

/-- The expression AST of `expression.ts`. -/
inductive Expression
  | num (value : ℚ)
  | var (name : String)
  | binary (op : BinaryOp) (left right : Expression)
  | unary (op : UnaryOp) (operand : Expression)
  | call (name : String) (args : List Expression)
deriving Repr

/-- The names of the builtin function table `BUILTINS` of `expression.ts`.
The numeric bodies are abstracted (see the module comment); only the name
set decides whether `evaluateExpression` throws. -/
def BUILTINS : List String :=
  ["sin", "cos", "tan", "sqrt", "abs", "floor", "ceil", "round",
   "min", "max", "pow", "log", "exp", "random"]

/-- One binary operation of the evaluator's `switch` block.  `powF` stands
for `Math.pow` and `modF` for the JS `%` operator; `/` carries the
division-by-zero guard of the source (`right !== 0 ? left / right : 0`).
JS truthiness of a number is `≠ 0`. -/
def evalBinary (powF modF : ℚ → ℚ → ℚ) (op : BinaryOp) (lv rv : ℚ) : ℚ :=
  match op with
  | .add => lv + rv
  | .sub => lv - rv
  | .mul => lv * rv
  | .div => if rv ≠ 0 then lv / rv else 0
  | .mod => modF lv rv
  | .pow => powF lv rv
  | .lt => if lv < rv then 1 else 0
  | .gt => if rv < lv then 1 else 0
  | .le => if lv ≤ rv then 1 else 0
  | .ge => if rv ≤ lv then 1 else 0
  | .eq => if lv = rv then 1 else 0
  | .ne => if lv ≠ rv then 1 else 0
  | .land => if (if lv ≠ 0 then rv else lv) ≠ 0 then 1 else 0
  | .lor => if (if lv ≠ 0 then lv else rv) ≠ 0 then 1 else 0

mutual

/-- `evaluateExpression` of `expression.ts`.  `bi` gives the numeric body
of each builtin, `vars` is the environment; a JS `throw` is `.error`. -/
def evaluateExpression (bi : String → List ℚ → ℚ) (powF modF : ℚ → ℚ → ℚ)
    (e : Expression) (vars : String → Option ℚ) : Except String ℚ :=
  match e with
  | .num v => .ok v
  | .var n =>
    match vars n with
    | some v => .ok v
    | none => .error ("Unknown variable: " ++ n)
  | .binary op l r =>
    match evaluateExpression bi powF modF l vars with
    | .error m => .error m
    | .ok lv =>
      match evaluateExpression bi powF modF r vars with
      | .error m => .error m
      | .ok rv => .ok (evalBinary powF modF op lv rv)
  | .unary op o =>
    match evaluateExpression bi powF modF o vars with
    | .error m => .error m
    | .ok v =>
      .ok (match op with
           | .neg => -v
           | .lnot => if v ≠ 0 then 0 else 1)
  | .call n args =>
    if n ∈ BUILTINS then
      match evalArgs bi powF modF args vars with
      | .error m => .error m
      | .ok vs => .ok (bi n vs)
    else .error ("Unknown function: " ++ n)

/-- `expr.args.map(a => evaluateExpression(a, vars))`, with the first
thrown exception propagating, as in JS. -/
def evalArgs (bi : String → List ℚ → ℚ) (powF modF : ℚ → ℚ → ℚ)
    (args : List Expression) (vars : String → Option ℚ) :
    Except String (List ℚ) :=
  match args with
  | [] => .ok []
  | a :: rest =>
    match evaluateExpression bi powF modF a vars with
    | .error m => .error m
    | .ok v =>
      match evalArgs bi powF modF rest vars with
      | .error m => .error m
      | .ok vs => .ok (v :: vs)

end

/-- `true` iff the `Except` is an `error`. -/
def evalFails (x : Except String ℚ) : Bool :=
  match x with
  | .error _ => true
  | .ok _ => false

mutual

/-- An expression mentions (at an evaluated position) a variable not bound
in the environment or a call whose name is not in the builtin table. -/
def hasUnknownB (e : Expression) (vars : String → Option ℚ) : Bool :=
  match e with
  | .num _ => false
  | .var n => (vars n).isNone
  | .binary _ l r => hasUnknownB l vars || hasUnknownB r vars
  | .unary _ o => hasUnknownB o vars
  | .call n args => decide (n ∉ BUILTINS) || anyUnknownB args vars

/-- `hasUnknownB` over an argument list. -/
def anyUnknownB (args : List Expression) (vars : String → Option ℚ) : Bool :=
  match args with
  | [] => false
  | a :: rest => hasUnknownB a vars || anyUnknownB rest vars

end

mutual

/-- Evaluation throws exactly when an unknown name occurs in the
expression (helper for claim C8, proved mutually with its list form). -/
theorem evalFails_eq_hasUnknownB (bi : String → List ℚ → ℚ)
    (powF modF : ℚ → ℚ → ℚ) (e : Expression) (vars : String → Option ℚ) :
    evalFails (evaluateExpression bi powF modF e vars) = hasUnknownB e vars :=
  match e with
  | .num _ => rfl
  | .var n => by
    cases h : vars n <;> simp [evaluateExpression, hasUnknownB, evalFails, h]
  | .binary op l r => by
    have ihl := evalFails_eq_hasUnknownB bi powF modF l vars
    have ihr := evalFails_eq_hasUnknownB bi powF modF r vars
    cases hl : evaluateExpression bi powF modF l vars with
    | error m =>
      rw [hl] at ihl
      simp [evaluateExpression, hasUnknownB, hl, evalFails] at ihl ⊢
      simp [← ihl]
    | ok lv =>
      rw [hl] at ihl
      cases hr : evaluateExpression bi powF modF r vars with
      | error m =>
        rw [hr] at ihr
        simp [evaluateExpression, hasUnknownB, hl, hr, evalFails] at ihl ihr ⊢
        simp [← ihl, ← ihr]
      | ok rv =>
        rw [hr] at ihr
        simp [evalFails] at ihl ihr
        simp [evaluateExpression, hasUnknownB, hl, hr, evalFails, ihl, ihr]
  | .unary op o => by
    have iho := evalFails_eq_hasUnknownB bi powF modF o vars
    cases ho : evaluateExpression bi powF modF o vars with
    | error m =>
      rw [ho] at iho
      simp [evaluateExpression, hasUnknownB, ho, evalFails] at iho ⊢
      simp [← iho]
    | ok v =>
      rw [ho] at iho
      simp [evaluateExpression, hasUnknownB, ho, evalFails] at iho ⊢
      simp [← iho]
  | .call n args => by
    have iha := anyFails_eq_anyUnknownB bi powF modF args vars
    by_cases hn : n ∈ BUILTINS
    · cases ha : evalArgs bi powF modF args vars with
      | error m =>
        rw [ha] at iha
        simp [evaluateExpression, hasUnknownB, hn, ha, evalFails] at iha ⊢
        simp [← iha]
      | ok vs =>
        rw [ha] at iha
        simp [evaluateExpression, hasUnknownB, hn, ha, evalFails] at iha ⊢
        simp [← iha]
    · simp [evaluateExpression, hasUnknownB, hn, evalFails]

/-- List form of `evalFails_eq_hasUnknownB`. -/
theorem anyFails_eq_anyUnknownB (bi : String → List ℚ → ℚ)
    (powF modF : ℚ → ℚ → ℚ) (args : List Expression)
    (vars : String → Option ℚ) :
    (match evalArgs bi powF modF args vars with
     | .error _ => true
     | .ok _ => false) = anyUnknownB args vars :=
  match args with
  | [] => rfl
  | a :: rest => by
    have iha := evalFails_eq_hasUnknownB bi powF modF a vars
    have ihr := anyFails_eq_anyUnknownB bi powF modF rest vars
    cases ha : evaluateExpression bi powF modF a vars with
    | error m =>
      rw [ha] at iha
      simp [evalArgs, anyUnknownB, ha, evalFails] at iha ⊢
      simp [← iha]
    | ok v =>
      rw [ha] at iha
      cases hr : evalArgs bi powF modF rest vars with
      | error m =>
        rw [hr] at ihr
        simp [evalArgs, anyUnknownB, ha, hr, evalFails] at iha ihr ⊢
        simp [← iha, ← ihr]
      | ok vs =>
        rw [hr] at ihr
        simp [evalFails] at iha
        simp at ihr
        simp [evalArgs, anyUnknownB, ha, hr, evalFails, iha, ihr]

end

/-- Trivial concrete instantiations of the abstracted numeric parameters,
used by witnesses (any functions would do; theorems quantify over them). -/
def bi0 : String → List ℚ → ℚ := fun _ _ => 0

/-- Concrete stand-in for `Math.pow` used by witnesses. -/
def pf0 : ℚ → ℚ → ℚ := fun _ _ => 0

/-- Concrete stand-in for the JS `%` operator used by witnesses. -/
def mf0 : ℚ → ℚ → ℚ := fun _ _ => 0

/-- The empty environment. -/
def env0 : String → Option ℚ := fun _ => none

/-- C8: `evaluateExpression` signals an error (throws) if and only if
evaluation reaches a variable not bound in the environment or a call whose
name is not in the builtin table (`BUILTINS`); in every other case it
returns a number without signalling.  Quantified over the numeric bodies
of the builtins and of `Math.pow` / `%`, which never throw in the source. -/
theorem evaluateExpression_error_iff_unknown_name
    (bi : String → List ℚ → ℚ) (powF modF : ℚ → ℚ → ℚ)
    (e : Expression) (vars : String → Option ℚ) :
    (∃ m, evaluateExpression bi powF modF e vars = Except.error m) ↔
      hasUnknownB e vars = true := by
  have h := evalFails_eq_hasUnknownB bi powF modF e vars
  constructor
  · rintro ⟨m, hm⟩
    rw [hm] at h
    simpa [evalFails] using h.symm
  · intro hu
    rw [hu] at h
    cases hv : evaluateExpression bi powF modF e vars with
    | error m => exact ⟨m, rfl⟩
    | ok v => rw [hv] at h; simp [evalFails] at h

/-- Witness for C8: the expression `q` with an empty environment throws,
by the theorem applied at that concrete input. -/
theorem evaluateExpression_error_iff_unknown_name_witness :
    ∃ m, evaluateExpression bi0 pf0 mf0 (Expression.var "q") env0 =
      Except.error m :=
  (evaluateExpression_error_iff_unknown_name bi0 pf0 mf0
    (Expression.var "q") env0).mpr (by decide)

/-- C10: division is guarded — whenever the right operand of `/` evaluates
to `0` the operator yields `0` (and no error is signalled); otherwise it
yields the exact quotient. -/
theorem evaluateExpression_div_zero_guard
    (bi : String → List ℚ → ℚ) (powF modF : ℚ → ℚ → ℚ)
    (l r : Expression) (vars : String → Option ℚ) (lv rv : ℚ)
    (hl : evaluateExpression bi powF modF l vars = Except.ok lv)
    (hr : evaluateExpression bi powF modF r vars = Except.ok rv) :
    evaluateExpression bi powF modF (Expression.binary BinaryOp.div l r) vars
      = Except.ok (if rv = 0 then 0 else lv / rv) := by
  rw [evaluateExpression, hl, hr]
  rcases eq_or_ne rv 0 with h | h <;> simp [evalBinary, h]

/-- Witness for C10: `5 / 0` evaluates to `0`, by the theorem applied at
the concrete operands. -/
theorem evaluateExpression_div_zero_guard_witness :
    evaluateExpression bi0 pf0 mf0
      (Expression.binary BinaryOp.div (Expression.num 5) (Expression.num 0))
      env0 = Except.ok 0 := by
  simpa using evaluateExpression_div_zero_guard bi0 pf0 mf0
    (Expression.num 5) (Expression.num 0) env0 5 0 rfl rfl

/-! ## §2  Sequential derivation engine (`src/lib/derivation/derive.ts`)

`derive` copies only symbol ids (`{ id: replacement[j].id }` in the
source), so a symbol is embedded as its id character.  The source builds
a `Map` by iterating over the rule list with `set`, so the *last* rule
with a given predecessor wins; `ruleGet` reproduces that lookup.
-/

/-- A D0L rule as consumed by `derive` (`{ predecessor, successor }`). -/
structure D0LRule where
  predecessor : Char
  successor : List Char
deriving DecidableEq, Repr

/-- `ruleMap.get(id)` for the map built by `derive`: the successor of the
last rule whose predecessor is `c`, if any. -/
def ruleGet (rules : List D0LRule) (c : Char) : Option (List Char) :=
  (rules.reverse.find? (fun r => r.predecessor = c)).map (fun r => r.successor)

/-- Expansion of one input symbol: the matched successor, or the symbol
itself (identity rule). -/
def expandSym (rules : List D0LRule) (c : Char) : List Char :=
  match ruleGet rules c with
  | some s => s
  | none => [c]

/-- `derive` of `derive.ts`: replace every symbol independently. -/
def derive (symbols : List Char) (rules : List D0LRule) : List Char :=
  symbols.flatMap (expandSym rules)

/-- A grammar as consumed by the sequential engine. -/
structure Grammar where
  axm : List Char
  rules : List D0LRule
deriving DecidableEq, Repr

/-- `deriveN` of `derive.ts`: apply `derive` for `n` generations starting
from the axiom. -/
def deriveN (g : Grammar) (n : ℕ) : List Char :=
  Nat.rec g.axm (fun _ s => derive s g.rules) n

/-- `estimateGrowthRate` of `derive.ts`: `1` when there are no rules, else
the mean successor length. -/
def estimateGrowthRate (g : Grammar) : ℚ :=
  if g.rules = [] then 1
  else ((g.rules.map (fun r => (r.successor.length : ℚ))).sum) /
    (g.rules.length : ℚ)

/-- `calculateSafeGenerations` of `derive.ts`.  `flog a b` abstracts
`Math.floor(Math.log(a) / Math.log(b))` (real logarithms have no exact
rational counterpart); every theorem quantifies over it. -/
def calculateSafeGenerations (flog : ℚ → ℚ → ℤ) (g : Grammar)
    (maxSymbols : ℚ) : ℤ :=
  let growthRate := estimateGrowthRate g
  if growthRate ≤ 1 then 100
  else max 1 (min (flog (maxSymbols / (g.axm.length : ℚ)) growthRate) 20)

/-- `calculateSafeGenerations` at its default ceiling argument
(`maxSymbols = 4_000_000` in the source). -/
def calculateSafeGenerationsD (flog : ℚ → ℚ → ℤ) (g : Grammar) : ℤ :=
  calculateSafeGenerations flog g 4000000

/-! ### Bracket balance -/

/-- Run the bracket-depth automaton from depth `d`: `[` increments, `]`
decrements, any prefix that would drive the depth negative yields `none`;
otherwise the final depth. -/
def goBal (d : ℕ) (s : List Char) : Option ℕ :=
  match s with
  | [] => some d
  | c :: t =>
    if c = '[' then goBal (d + 1) t
    else if c = ']' then
      match d with
      | 0 => none
      | d' + 1 => goBal d' t
    else goBal d t

/-- A sequence is bracket-balanced: equally many `[` and `]`, and no
prefix in which `]` outnumber `[`. -/
def balanced (s : List Char) : Prop := goBal 0 s = some 0

instance (s : List Char) : Decidable (balanced s) := by
  unfold balanced; infer_instance

/-- `goBal` splits over append. -/
theorem goBal_append (a b : List Char) (d : ℕ) :
    goBal d (a ++ b) = (goBal d a).bind (fun d' => goBal d' b) := by
  induction a generalizing d with
  | nil => simp [goBal]
  | cons c t ih =>
    by_cases hc : c = '['
    · simp [goBal, hc, ih]
    · by_cases hc' : c = ']'
      · cases d with
        | zero => simp [goBal, hc, hc']
        | succ d' => simp [goBal, hc, hc', ih]
      · simp [goBal, hc, hc', ih]

/-- Raising the start depth shifts a successful `goBal` run. -/
theorem goBal_shift (s : List Char) (d r k : ℕ) (h : goBal d s = some r) :
    goBal (d + k) s = some (r + k) := by
  induction s generalizing d r with
  | nil => simp [goBal] at h ⊢; omega
  | cons c t ih =>
    by_cases hc : c = '['
    · simp [goBal, hc] at h ⊢
      have e : d + k + 1 = d + 1 + k := by omega
      rw [e]
      exact ih (d + 1) r h
    · by_cases hc' : c = ']'
      · cases d with
        | zero => simp [goBal, hc, hc'] at h
        | succ d' =>
          simp [goBal, hc, hc'] at h
          have e : d' + 1 + k = (d' + k) + 1 := by omega
          rw [e]
          simp [goBal, hc, hc']
          exact ih d' r h
      · simp [goBal, hc, hc'] at h ⊢
        exact ih d r h

/-- A successful `ruleGet` comes from a rule of the list. -/
theorem ruleGet_mem (rules : List D0LRule) (c : Char) (succ : List Char)
    (h : ruleGet rules c = some succ) :
    ∃ r ∈ rules, r.predecessor = c ∧ r.successor = succ := by
  unfold ruleGet at h
  cases hf : rules.reverse.find? (fun r => r.predecessor = c) with
  | none => rw [hf] at h; simp at h
  | some r =>
    rw [hf] at h
    simp at h
    refine ⟨r, ?_, ?_, h⟩
    · exact List.mem_reverse.mp (List.mem_of_find?_eq_some hf)
    · have := List.find?_some hf
      simpa using this

/-- If no rule matches a symbol, `ruleGet` is `none`. -/
theorem ruleGet_none (rules : List D0LRule) (c : Char)
    (h : ∀ r ∈ rules, r.predecessor ≠ c) : ruleGet rules c = none := by
  unfold ruleGet
  rw [List.find?_eq_none.mpr]
  · rfl
  · intro r hr
    simp [h r (List.mem_reverse.mp hr)]

/-- Core of claim C4: one `derive` step preserves any successful
bracket-depth run, provided every successor is balanced and no rule
rewrites a bracket. -/
theorem goBal_derive (rules : List D0LRule)
    (hr : ∀ r ∈ rules,
      balanced r.successor ∧ r.predecessor ≠ '[' ∧ r.predecessor ≠ ']') :
    ∀ s d rr, goBal d s = some rr → goBal d (derive s rules) = some rr := by
  intro s
  induction s with
  | nil => intro d rr h; simpa [derive] using h
  | cons c t ih =>
    intro d rr h
    have hsplit : derive (c :: t) rules = expandSym rules c ++ derive t rules := by
      simp [derive]
    rw [hsplit, goBal_append]
    by_cases hc : c = '['
    · have hnone : ruleGet rules c = none := by
        refine ruleGet_none rules c (fun r hrm => ?_)
        rw [hc]
        exact (hr r hrm).2.1
      subst hc
      simp [goBal] at h
      simp [expandSym, hnone, goBal]
      exact ih (d + 1) rr h
    · by_cases hc' : c = ']'
      · have hnone : ruleGet rules c = none := by
          refine ruleGet_none rules c (fun r hrm => ?_)
          rw [hc']
          exact (hr r hrm).2.2
        subst hc'
        cases d with
        | zero => simp [goBal] at h
        | succ d' =>
          simp [goBal] at h
          simp [expandSym, hnone, goBal]
          exact ih d' rr h
      · simp [goBal, hc, hc'] at h
        have hstep : goBal d (expandSym rules c) = some d := by
          cases hg : ruleGet rules c with
          | none => simp [expandSym, hg, goBal, hc, hc']
          | some succ =>
            obtain ⟨r, hrm, _, hsucc⟩ := ruleGet_mem rules c succ hg
            have hbal : goBal 0 succ = some 0 := by
              have := (hr r hrm).1
              rw [hsucc] at this
              exact this
            have := goBal_shift succ 0 0 d hbal
            simpa [expandSym, hg] using this
        rw [hstep]
        exact ih d rr h

/-- C4 (amended): for every grammar whose axiom and rule successors are
bracket-balanced *and* which does not rewrite `[` or `]` themselves, the
result of `derive` — and of `deriveN` at every generation — is
bracket-balanced (so the depth of every prefix is nonnegative). -/
theorem derive_preserves_balanced (g : Grammar)
    (hax : balanced g.axm)
    (hr : ∀ r ∈ g.rules,
      balanced r.successor ∧ r.predecessor ≠ '[' ∧ r.predecessor ≠ ']') :
    balanced (derive g.axm g.rules) ∧ ∀ n, balanced (deriveN g n) := by
  constructor
  · exact goBal_derive g.rules hr g.axm 0 0 hax
  · intro n
    induction n with
    | zero => exact hax
    | succ n ihn => exact goBal_derive g.rules hr (deriveN g n) 0 0 ihn

/-- C4, counterexample to the claim as stated: the grammar with axiom
`[]` and the single rule `[ -> F` has a balanced axiom and only balanced
successors, yet one derivation step yields the unbalanced sequence `F]`. -/
theorem derive_balance_counterexample :
    balanced ['[', ']'] ∧ balanced ['F'] ∧
      ¬ balanced (derive ['[', ']'] [⟨'[', ['F']⟩]) := by decide

/-- Grammar used by the C4 witness. -/
def gBranch : Grammar := ⟨['F'], [⟨'F', ['[', 'F', ']']⟩]⟩

/-- Witness for the amended C4 at a concrete branching grammar. -/
theorem derive_preserves_balanced_witness :
    balanced (derive gBranch.axm gBranch.rules) ∧
      ∀ n, balanced (deriveN gBranch n) :=
  derive_preserves_balanced gBranch (by decide) (by decide)

/-- Concrete stand-in for `Math.floor(Math.log a / Math.log b)` used by
witnesses and counterexamples whose control path never consults it. -/
def flog0 : ℚ → ℚ → ℤ := fun _ _ => 0

/-- A grammar with no rules: `estimateGrowthRate` returns `1`. -/
def gNoGrow : Grammar := ⟨['F'], []⟩

/-- A doubling grammar: `estimateGrowthRate` returns `2`. -/
def gDouble : Grammar := ⟨['F'], [⟨'F', ['F', 'F']⟩]⟩

/-- C6, counterexample to the claim as stated: for a grammar with no
rules (growth rate `≤ 1`) and the default ceiling of 4,000,000,
`calculateSafeGenerations` returns 100, which exceeds 20.  The early
`return 100` branch of the source is independent of the log estimate. -/
theorem calculateSafeGenerations_exceeds_20 :
    calculateSafeGenerations flog0 gNoGrow 4000000 = 100 ∧
      ¬ calculateSafeGenerations flog0 gNoGrow 4000000 ≤ 20 := by decide

/-- C6 (amended): whenever the estimated growth rate exceeds 1,
`calculateSafeGenerations` returns a bound clamped into `[1, 20]` (for
any value of the abstracted floor-log estimate); when the growth rate is
at most 1 it returns 100; and the ceiling argument defaults to
4,000,000. -/
theorem calculateSafeGenerations_clamp (flog : ℚ → ℚ → ℤ) (g : Grammar)
    (maxSymbols : ℚ) :
    (estimateGrowthRate g ≤ 1 →
      calculateSafeGenerations flog g maxSymbols = 100) ∧
    (1 < estimateGrowthRate g →
      1 ≤ calculateSafeGenerations flog g maxSymbols ∧
        calculateSafeGenerations flog g maxSymbols ≤ 20) ∧
    calculateSafeGenerationsD flog g = calculateSafeGenerations flog g 4000000 := by
  refine ⟨fun h => by simp [calculateSafeGenerations, h], fun h => ?_, rfl⟩
  have h' : ¬ estimateGrowthRate g ≤ 1 := not_le.mpr h
  refine ⟨by simp [calculateSafeGenerations, h'], ?_⟩
  simp only [calculateSafeGenerations, h', if_false]
  exact max_le (by norm_num) (min_le_right _ _)

/-- Witness for the amended C6 at the two concrete grammars. -/
theorem calculateSafeGenerations_clamp_witness :
    calculateSafeGenerations flog0 gNoGrow 4000000 = 100 ∧
      1 ≤ calculateSafeGenerations flog0 gDouble 4000000 ∧
        calculateSafeGenerations flog0 gDouble 4000000 ≤ 20 :=
  ⟨(calculateSafeGenerations_clamp flog0 gNoGrow 4000000).1 (by decide),
   (calculateSafeGenerations_clamp flog0 gDouble 4000000).2.1
     (by norm_num [estimateGrowthRate, gDouble])⟩

/-! ## §3  Parallel derivation engine
(`src/lib/derivation/gpu-derive` host code together with
`expansion-counts.wgsl`, `prefix-sum.wgsl` and `derive.wgsl`)

Device buffers are modelled as total functions `ℕ → ℕ`; a freshly created
WebGPU buffer is zero-initialised, writes beyond a buffer's element count
are discarded, and shader loads add with `u32` wrap-around.  Each compute
pass is data parallel with disjoint writes, so it is embedded as a fold
over the invocation index.
-/

/-- `MAX_RULES` of the host code. -/
def MAX_RULES : ℕ := 64

/-- `MAX_SUCCESSORS` of the host code. -/
def MAX_SUCCESSORS : ℕ := 512

/-- `MAX_SYMBOLS`, the hard buffer cap of the host code. -/
def MAX_SYMBOLS : ℕ := 8000000

/-- `GPU_THRESHOLD` below which the CPU path is preferred. -/
def GPU_THRESHOLD : ℕ := 1000

/-- `u32` addition of the shaders. -/
def u32add (a b : ℕ) : ℕ := (a + b) % 2 ^ 32

/-- One entry of the rule-table buffer (`struct Rule`). -/
structure GpuRule where
  predecessorId : ℕ
  successorCount : ℕ
  successorOffset : ℕ
deriving DecidableEq, Repr

/-- `uploadRules`: the rule-table buffer (zero-filled beyond the uploaded
rules — the zero `predecessor_id` acts as the sentinel), the flat
successor-id buffer, and `ctx.ruleCount`. -/
def uploadRules (rules : List D0LRule) : (ℕ → GpuRule) × (ℕ → ℕ) × ℕ :=
  let rules' := rules.take MAX_RULES
  let ruleBuf : ℕ → GpuRule := fun i =>
    match rules'.get? i with
    | some r =>
      ⟨r.predecessor.toNat, r.successor.length,
        ((rules'.take i).map (fun q => q.successor.length)).sum⟩
    | none => ⟨0, 0, 0⟩
  let flat := rules'.flatMap (fun r => r.successor.map Char.toNat)
  let succBuf : ℕ → ℕ := fun j =>
    if j < MAX_SUCCESSORS then flat.getD j 0 else 0
  (ruleBuf, succBuf, rules.length)

/-- The rule search loop shared by `find_rule` (`derive.wgsl`) and
`find_expansion_count` (`expansion-counts.wgsl`): scan `i < maxRules`,
return the first rule whose predecessor matches, stop at the zero
sentinel.  The fuel argument counts the remaining iterations. -/
def findLoop (ruleBuf : ℕ → GpuRule) (sym : ℕ) : ℕ → ℕ → Option GpuRule
  | 0, _ => none
  | fuel + 1, i =>
    if (ruleBuf i).predecessorId = sym then some (ruleBuf i)
    else if (ruleBuf i).predecessorId = 0 then none
    else findLoop ruleBuf sym fuel (i + 1)

/-- `find_expansion_count`: successor length of the matching rule, `1`
(identity) otherwise. -/
def findExpansionCount (ruleBuf : ℕ → GpuRule) (maxRules sym : ℕ) : ℕ :=
  match findLoop ruleBuf sym maxRules 0 with
  | some r => r.successorCount
  | none => 1

/-- A guarded buffer write: writes beyond the buffer's element count are
discarded. -/
def bufWrite (buf : ℕ → ℕ) (size i v : ℕ) : ℕ → ℕ :=
  if i < size then Function.update buf i v else buf

/-- The `compute_counts` pass: `counts[i] = find_expansion_count(input[i])`
for every `i < inputCount`; other entries keep their previous contents. -/
def computeCountsPass (ruleBuf : ℕ → GpuRule) (maxRules : ℕ)
    (inputBuf countsBuf : ℕ → ℕ) (inputCount : ℕ) : ℕ → ℕ :=
  fun i =>
    if i < inputCount then findExpansionCount ruleBuf maxRules (inputBuf i)
    else countsBuf i

/-- One up-sweep stage of the Blelloch scan (`scan_blocks`): every thread
`tid < d` adds `shared[off·(2·tid+1)−1]` into `shared[off·(2·tid+2)−1]`.
Writes are disjoint across threads, so a fold over `tid` is the parallel
stage. -/
def upPhase (sh : Array ℕ) (d off : ℕ) : Array ℕ :=
  (List.range d).foldl
    (fun a tid =>
      let ai := off * (2 * tid + 1) - 1
      let bi := off * (2 * tid + 2) - 1
      a.set! bi (u32add (a.getD bi 0) (a.getD ai 0)))
    sh

/-- One down-sweep stage of the Blelloch scan. -/
def downPhase (sh : Array ℕ) (d off : ℕ) : Array ℕ :=
  (List.range d).foldl
    (fun a tid =>
      let ai := off * (2 * tid + 1) - 1
      let bi := off * (2 * tid + 2) - 1
      let t := a.getD ai 0
      let vbi := a.getD bi 0
      ((a.set! ai vbi).set! bi (u32add vbi t)))
    sh

/-- The shared-memory body of `scan_blocks` on one 512-element block:
up-sweep (`d = 256, 128, …, 1`, `offset = 1, 2, …, 256`), record the block
total and clear the last slot, down-sweep (`d = 1, 2, …, 256`,
`offset = 256, …, 1`).  Returns the scanned block and its total. -/
def scanBlockShared (load : Array ℕ) : Array ℕ × ℕ :=
  let sh := (List.range 9).foldl (fun a k => upPhase a (256 / 2 ^ k) (2 ^ k)) load
  let total := sh.getD 511 0
  let sh := sh.set! 511 0
  let sh := (List.range 9).foldl (fun a k => downPhase a (2 ^ k) (256 / 2 ^ k)) sh
  (sh, total)

/-- The `scan_blocks` dispatch over `numWg` workgroups: block `w` loads
`input[512·w ..]` (zero beyond `count`), scans it, writes the scanned
values back under the `count` bound and stores the block total in
`blockSums[w]`. -/
def scanBlocksDispatch (input : ℕ → ℕ) (count numWg : ℕ)
    (output blockSums : ℕ → ℕ) : (ℕ → ℕ) × (ℕ → ℕ) :=
  (List.range numWg).foldl
    (fun acc w =>
      let load : Array ℕ := Array.ofFn (n := 512) fun j =>
        if 512 * w + j.val < count then input (512 * w + j.val) else 0
      let res := scanBlockShared load
      let out' : ℕ → ℕ := fun i =>
        if 512 * w ≤ i ∧ i < 512 * (w + 1) ∧ i < count then res.1.getD (i - 512 * w) 0
        else acc.1 i
      (out', Function.update acc.2 w res.2))
    (output, blockSums)

/-- The `add_block_sums` dispatch, with the workgroup geometry the host
uses: `numWg` workgroups of 256 invocations, workgroup `w = idx / 256`
adds `blockSumsScanned[w]` to `output[idx]`, skipping workgroup 0 and any
`idx ≥ count`.  (The scan blocks are 512 elements wide, so this geometry
covers only the first `256·numWg` elements and indexes the scanned sums
by `idx / 256`.) -/
def addBlockSumsPass (output blockSumsScanned : ℕ → ℕ) (count numWg : ℕ) :
    ℕ → ℕ :=
  fun i =>
    if i < numWg * 256 ∧ i < count ∧ 256 ≤ i then
      u32add (output i) (blockSumsScanned (i / 256))
    else output i

/-- The `derive` scatter pass of `derive.wgsl`: every input position
writes its successor symbols (or itself) at its prefix-sum offset, with
writes beyond the output buffer's capacity discarded. -/
def scatterPass (ruleBuf : ℕ → GpuRule) (succBuf : ℕ → ℕ)
    (maxRules : ℕ) (inputBuf prefixBuf : ℕ → ℕ) (inputCount bufSize : ℕ)
    (out : ℕ → ℕ) : ℕ → ℕ :=
  (List.range inputCount).foldl
    (fun out idx =>
      let sym := inputBuf idx
      let start := prefixBuf idx
      match findLoop ruleBuf sym maxRules 0 with
      | some r =>
        (List.range r.successorCount).foldl
          (fun out i => bufWrite out bufSize (start + i) (succBuf (r.successorOffset + i)))
          out
      | none => bufWrite out bufSize start sym)
    out

/-- The persistent GPU-derivation context (`GPUDerivationContext`), with
each device buffer as its current contents and `currentBufferSize` as the
capacity (in symbols) of the symbol/counts/offset buffers. -/
structure GpuCtx where
  ruleBuf : ℕ → GpuRule
  succBuf : ℕ → ℕ
  ruleCount : ℕ
  bufA : ℕ → ℕ
  bufB : ℕ → ℕ
  countsBuf : ℕ → ℕ
  prefixBuf : ℕ → ℕ
  blockSums : ℕ → ℕ
  blockSumsScanned : ℕ → ℕ
  bufSize : ℕ

/-- `initGPUDerivation` followed by `uploadRules`: fresh (zero) buffers of
131072 symbols and the uploaded rule table. -/
def initCtx (rules : List D0LRule) : GpuCtx :=
  let up := uploadRules rules
  ⟨up.1, up.2.1, up.2.2, fun _ => 0, fun _ => 0, fun _ => 0, fun _ => 0,
    fun _ => 0, fun _ => 0, 131072⟩

/-- The `while (newSize < requiredSize) newSize *= 2` loop of
`ensureBufferSize`, with a structural fuel argument counting the remaining
iterations (the loop doubles a positive size, so `req` iterations always
suffice; the source never runs it from `0`). -/
def doubleUntilFuel (req : ℕ) : ℕ → ℕ → ℕ
  | 0, cur => cur
  | f + 1, cur => if cur < req then doubleUntilFuel req f (cur * 2) else cur

/-- The doubling loop of `ensureBufferSize`. -/
def doubleUntil (cur req : ℕ) : ℕ := doubleUntilFuel req req cur

/-- `ensureBufferSize`: grow by doubling, capped at `MAX_SYMBOLS`, and
recreate (zero) the per-symbol device buffers; no-op when the capacity
already suffices. -/
def ensureBufferSize (ctx : GpuCtx) (requiredSize : ℕ) : GpuCtx :=
  if requiredSize ≤ ctx.bufSize then ctx
  else
    { ctx with
      bufA := fun _ => 0
      bufB := fun _ => 0
      countsBuf := fun _ => 0
      prefixBuf := fun _ => 0
      blockSums := fun _ => 0
      blockSumsScanned := fun _ => 0
      bufSize := min (doubleUntil ctx.bufSize requiredSize) MAX_SYMBOLS }

/-- `deriveOneGeneration`: the four dispatches (expansion counts, per-block
scan, block-sum scan plus broadcast add when there is more than one block,
scatter), followed by the host-side *estimated* output count
`Math.floor(inputCount * 1.5)` — the source does not read the exact total
back (its comment marks this `TODO`). -/
def deriveOneGeneration (ctx : GpuCtx) (inputCount : ℕ)
    (inputBuf outputBuf : ℕ → ℕ) : GpuCtx × (ℕ → ℕ) × ℕ :=
  let counts := computeCountsPass ctx.ruleBuf ctx.ruleCount inputBuf
    ctx.countsBuf inputCount
  let numBlocks := (inputCount + 511) / 512
  let scanned := scanBlocksDispatch counts inputCount numBlocks
    ctx.prefixBuf ctx.blockSums
  let afterSums :=
    if 1 < numBlocks then
      let blockScan := scanBlocksDispatch scanned.2 numBlocks 1
        ctx.blockSumsScanned scanned.2
      (addBlockSumsPass scanned.1 blockScan.1 inputCount numBlocks,
        blockScan.2, blockScan.1)
    else (scanned.1, scanned.2, ctx.blockSumsScanned)
  let out := scatterPass ctx.ruleBuf ctx.succBuf ctx.ruleCount inputBuf
    afterSums.1 inputCount ctx.bufSize outputBuf
  let outputCount := 3 * inputCount / 2
  ({ ctx with
      countsBuf := counts
      prefixBuf := afterSums.1
      blockSums := afterSums.2.1
      blockSumsScanned := afterSums.2.2 },
    out, outputCount)

/-- The per-generation loop of `deriveGPU`: run one generation, cap the
(estimated) count at the buffer capacity instead of resizing, swap the
ping-pong buffers.  Returns the context, the buffer holding the final
symbols, and the final count. -/
def deriveLoop (ctx : GpuCtx) (inputBuf outputBuf : ℕ → ℕ)
    (count : ℕ) : ℕ → GpuCtx × (ℕ → ℕ) × ℕ
  | 0 => (ctx, inputBuf, count)
  | g + 1 =>
    let step := deriveOneGeneration ctx count inputBuf outputBuf
    let newCount :=
      if step.1.bufSize < step.2.2 then step.1.bufSize else step.2.2
    deriveLoop step.1 step.2.1 inputBuf newCount g

/-- `readSymbols`: read `count` symbol ids back and convert each with
`String.fromCharCode`. -/
def readSymbols (buf : ℕ → ℕ) (count : ℕ) : List Char :=
  (List.range count).map (fun i => Char.ofNat (buf i))

/-- `deriveGPU`: the host orchestration.  `none` models the `null` return
that signals the caller to fall back to the CPU path. -/
def deriveGPU (ctx : GpuCtx) (axm : List Char) (generations : ℕ) :
    Option (List Char) :=
  if axm.length = 0 ∨ generations = 0 then some axm
  else if axm.length < GPU_THRESHOLD ∧ generations ≤ 3 then none
  else
    let estimatedSize := axm.length * 2 ^ generations
    let ctx := ensureBufferSize ctx (min estimatedSize MAX_SYMBOLS)
    let bufA : ℕ → ℕ := fun i =>
      if h : i < axm.length then (axm.get ⟨i, h⟩).toNat else ctx.bufA i
    let ctx := { ctx with bufA := bufA }
    let res := deriveLoop ctx ctx.bufA ctx.bufB axm.length generations
    some (readSymbols res.2.1 res.2.2)

/-- The evolution of the host's `currentCount` across generations:
`Math.floor(count * 1.5)`, capped at the buffer capacity. -/
def countIter (bufSize count : ℕ) : ℕ → ℕ
  | 0 => count
  | g + 1 =>
    countIter bufSize
      (if bufSize < 3 * count / 2 then bufSize else 3 * count / 2) g

/-- `deriveOneGeneration` never changes the buffer capacity. -/
theorem deriveOneGeneration_bufSize (ctx : GpuCtx) (n : ℕ)
    (a b : ℕ → ℕ) : (deriveOneGeneration ctx n a b).1.bufSize = ctx.bufSize :=
  rfl

/-- The count returned by the loop depends only on the starting count and
the buffer capacity. -/
theorem deriveLoop_count (g : ℕ) : ∀ (ctx : GpuCtx) (a b : ℕ → ℕ) (n : ℕ),
    (deriveLoop ctx a b n g).2.2 = countIter ctx.bufSize n g := by
  induction g with
  | zero => intro ctx a b n; rfl
  | succ g ih =>
    intro ctx a b n
    simp only [deriveLoop]
    rw [ih]
    rfl

/-- Reading back `count` symbols yields a list of length `count`. -/
theorem readSymbols_length (buf : ℕ → ℕ) (count : ℕ) :
    (readSymbols buf count).length = count := by
  simp [readSymbols]

/-- Capacity after `ensureBufferSize`. -/
theorem ensureBufferSize_bufSize (ctx : GpuCtx) (r : ℕ) :
    (ensureBufferSize ctx r).bufSize =
      if r ≤ ctx.bufSize then ctx.bufSize
      else min (doubleUntil ctx.bufSize r) MAX_SYMBOLS := by
  unfold ensureBufferSize
  split <;> rfl

/-- On the GPU path, the length of the returned symbol sequence is the
iterated count estimate — independent of the device buffer contents. -/
theorem deriveGPU_length (ctx : GpuCtx) (axm : List Char) (gens : ℕ)
    (h0 : ¬(axm.length = 0 ∨ gens = 0))
    (h2 : ¬(axm.length < GPU_THRESHOLD ∧ gens ≤ 3)) :
    (deriveGPU ctx axm gens).map List.length =
      some (countIter
        (ensureBufferSize ctx (min (axm.length * 2 ^ gens) MAX_SYMBOLS)).bufSize
        axm.length gens) := by
  simp only [deriveGPU, if_neg h0, if_neg h2]
  simp [readSymbols_length, deriveLoop_count]

/-- The rule set `F -> FF`. -/
def rulesFF : List D0LRule := [⟨'F', ['F', 'F']⟩]

/-- One `derive` step doubles a run of `F`s under `F -> FF`. -/
theorem derive_replicate_F (n : ℕ) :
    derive (List.replicate n 'F') rulesFF = List.replicate (2 * n) 'F' := by
  induction n with
  | zero => rfl
  | succ n ih =>
    rw [List.replicate_succ]
    have hsplit : derive ('F' :: List.replicate n 'F') rulesFF =
        expandSym rulesFF 'F' ++ derive (List.replicate n 'F') rulesFF := by
      simp [derive]
    rw [hsplit, ih]
    have e : 2 * (n + 1) = (2 * n) + 1 + 1 := by ring
    rw [e, List.replicate_succ, List.replicate_succ]
    rfl

/-- C1 (code bug): with axiom `F`, rule `F -> FF` and 4 generations, the
GPU path returns a single symbol — `deriveOneGeneration` reports the
estimate `⌊1.5·n⌋` instead of the exact expansion count, so the host's
running count never grows — while the sequential `deriveN` returns the 16
symbols `F…F`; the two paths disagree. -/
theorem deriveGPU_diverges_from_deriveN :
    (deriveGPU (initCtx rulesFF) ['F'] 4).map List.length = some 1 ∧
      (deriveN ⟨['F'], rulesFF⟩ 4).length = 16 ∧
      deriveGPU (initCtx rulesFF) ['F'] 4 ≠ some (deriveN ⟨['F'], rulesFF⟩ 4) := by
  have h1 : (deriveGPU (initCtx rulesFF) ['F'] 4).map List.length = some 1 := by
    rw [deriveGPU_length (initCtx rulesFF) ['F'] 4 (by decide) (by decide)]
    decide
  have h2 : (deriveN ⟨['F'], rulesFF⟩ 4).length = 16 := by decide
  refine ⟨h1, h2, fun heq => ?_⟩
  have h3 := congrArg (Option.map List.length) heq
  rw [h1] at h3
  simp [h2] at h3

/-- C3 (code bug): with a 4,000,000-symbol axiom and 2 generations of
`F -> FF`, the true result has 16,000,000 symbols; the buffers cap at
`MAX_SYMBOLS = 8,000,000` and `deriveGPU` silently clamps its count to
the capacity (`// Need to resize - for now just cap it`) and returns a
normal `some` result of 8,000,000 symbols — no overflow condition is
reported. -/
theorem deriveGPU_caps_silently :
    (deriveGPU (initCtx rulesFF) (List.replicate 4000000 'F') 2).map
        List.length = some 8000000 ∧
      (deriveN ⟨List.replicate 4000000 'F', rulesFF⟩ 2).length = 16000000 := by
  constructor
  · rw [deriveGPU_length (initCtx rulesFF) (List.replicate 4000000 'F') 2
      (by simp only [List.length_replicate]; norm_num)
      (by simp only [List.length_replicate, GPU_THRESHOLD]; norm_num)]
    simp only [List.length_replicate]
    decide
  · have h2 : deriveN ⟨List.replicate 4000000 'F', rulesFF⟩ 2 =
        derive (derive (List.replicate 4000000 'F') rulesFF) rulesFF := rfl
    rw [h2, derive_replicate_F, derive_replicate_F, List.length_replicate]

/-- `offsets[n-1] + counts[n-1]` for a counts list: the exclusive prefix
sum at the last position plus the last count. -/
def offsetsPlusLastCount (counts : List ℕ) : ℕ :=
  (counts.take (counts.length - 1)).sum + counts.getD (counts.length - 1) 0

/-- For a nonempty counts list, `offsets[n-1] + counts[n-1]` is exactly
the total sum of the counts — the identity the specification relies on. -/
theorem offsetsPlusLastCount_eq_sum (l : List ℕ) (h : l ≠ []) :
    offsetsPlusLastCount l = l.sum := by
  induction l using List.reverseRecOn with
  | nil => simp at h
  | append_singleton xs a _ =>
    simp [offsetsPlusLastCount, List.take_append, List.getD]

/-- The expansion counts the `compute_counts` pass writes for an input of
`n` symbols. -/
def expansionCountsList (ruleBuf : ℕ → GpuRule) (maxRules : ℕ)
    (inputBuf : ℕ → ℕ) (n : ℕ) : List ℕ :=
  (List.range n).map (fun i => findExpansionCount ruleBuf maxRules (inputBuf i))

/-- Context with the Koch rule `F -> F+F--F+F` uploaded. -/
def kochCtx : GpuCtx :=
  initCtx [⟨'F', ['F', '+', 'F', '-', '-', 'F', '+', 'F']⟩]

/-- An input buffer holding `F` everywhere. -/
def allF : ℕ → ℕ := fun _ => Char.toNat 'F'

/-- C2 (code bug): for 8 input symbols `F` under `F -> F+F--F+F`, the
exact total output count `offsets[n-1] + counts[n-1]` is 64, but
`deriveOneGeneration` returns the estimate `⌊8 · 1.5⌋ = 12`; nothing is
read back from the device (the source marks the readback `TODO`). -/
theorem deriveOneGeneration_count_is_estimate :
    (deriveOneGeneration kochCtx 8 allF kochCtx.bufB).2.2 = 12 ∧
      offsetsPlusLastCount
        (expansionCountsList kochCtx.ruleBuf kochCtx.ruleCount allF 8) = 64 ∧
      (12 : ℕ) ≠ 64 := by
  refine ⟨rfl, ?_, by norm_num⟩
  decide

/-! ## §4  Sequential turtle interpreters
(`interpretSymbols` of the CPU turtle module and `interpretFast` of the
fast turtle module)

`interpretFast` keeps its branch stack in five fixed 256-entry typed
arrays.  In JS, writing past the end of a typed array is silently
discarded and reading past the end yields `undefined` (whose arithmetic
is `NaN`).  A JS number that may be `undefined`/`NaN` is modelled as
`Option ℚ` (`none` = `undefined`/`NaN`), with arithmetic propagating
`none`.  `Math.cos`/`Math.sin`/`Math.PI` are abstracted as parameters
`cosF`, `sinF`, `piv` (see the module comment).  Colouring, bounds
tracking and the final normalisation pass of the source are downstream of
the turtle state and are not modelled; the integer narrowing of the
`Uint16`/`Uint32` stack lanes is not modelled (all values in scope are
small nonnegative integers). -/

/-- A symbol as the turtle sees it: an id and its (possibly empty)
parameter list. -/
structure TSym where
  id : Char
  params : List ℚ
deriving DecidableEq, Repr

/-- A JS number that may be `undefined`/`NaN`. -/
abbrev JsNum := Option ℚ

/-- JS `+` with `NaN` propagation. -/
def jsAdd (a b : JsNum) : JsNum :=
  match a, b with
  | some x, some y => some (x + y)
  | _, _ => none

/-- JS `-` with `NaN` propagation. -/
def jsSub (a b : JsNum) : JsNum :=
  match a, b with
  | some x, some y => some (x - y)
  | _, _ => none

/-- JS `*` with `NaN` propagation. -/
def jsMul (a b : JsNum) : JsNum :=
  match a, b with
  | some x, some y => some (x * y)
  | _, _ => none

/-- Apply a real function; `f(NaN) = NaN` for `Math.cos`/`Math.sin`. -/
def jsApp (f : ℚ → ℚ) (a : JsNum) : JsNum := a.map f

/-- One saved turtle record.  The source stores the five components in
five parallel typed arrays always indexed together; they are modelled as
one array of frames. -/
structure Frame where
  fx : JsNum
  fy : JsNum
  fangle : JsNum
  fdepth : JsNum
  fbranch : JsNum
deriving DecidableEq, Repr

/-- Read of the 256-entry stack arrays: out-of-bounds yields
`undefined` in every lane. -/
def frameRead (stack : Fin 256 → Frame) (i : ℕ) : Frame :=
  if h : i < 256 then stack ⟨i, h⟩ else ⟨none, none, none, none, none⟩

/-- Write to the 256-entry stack arrays: out-of-bounds writes are
silently discarded. -/
def frameWrite (stack : Fin 256 → Frame) (i : ℕ) (f : Frame) :
    Fin 256 → Frame :=
  if h : i < 256 then Function.update stack ⟨i, h⟩ f else stack

/-- A raw (pre-normalisation) line segment of `interpretFast`. -/
structure FastSeg where
  x1 : JsNum
  y1 : JsNum
  x2 : JsNum
  y2 : JsNum
  sdepth : JsNum
  sbranch : JsNum
deriving DecidableEq, Repr

/-- The mutable state of the `interpretFast` loop. -/
structure FastState where
  x : JsNum
  y : JsNum
  angle : JsNum
  depth : JsNum
  branchId : JsNum
  nextBranchId : ℚ
  stack : Fin 256 → Frame
  stackTop : ℕ
  segs : List FastSeg

/-- `sym.params[0]` if present, else the fixed step size 10. -/
def stepLen (s : TSym) : JsNum :=
  match s.params with
  | p :: _ => some p
  | [] => some 10

/-- The turn angle of `+`/`-`: `sym.params[0] * PI / 180` if present, else
the configured `angle * PI / 180`. -/
def turnOf (piv angleDeg : ℚ) (s : TSym) : JsNum :=
  match s.params with
  | p :: _ => some (p * piv / 180)
  | [] => some (angleDeg * piv / 180)

/-- One iteration of the `interpretFast` symbol loop. -/
def fastStep (cosF sinF : ℚ → ℚ) (piv angleDeg : ℚ)
    (st : FastState) (s : TSym) : FastState :=
  if s.id = 'F' ∨ s.id = 'G' ∨ s.id = 'A' ∨ s.id = 'B' then
    let step := stepLen s
    let newX := jsAdd st.x (jsMul (jsApp cosF st.angle) step)
    let newY := jsAdd st.y (jsMul (jsApp sinF st.angle) step)
    { st with
      x := newX
      y := newY
      segs := st.segs ++ [⟨st.x, st.y, newX, newY, st.depth, st.branchId⟩] }
  else if s.id = 'f' ∨ s.id = 'g' then
    { st with
      x := jsAdd st.x (jsMul (jsApp cosF st.angle) (stepLen s))
      y := jsAdd st.y (jsMul (jsApp sinF st.angle) (stepLen s)) }
  else if s.id = '+' then
    { st with angle := jsAdd st.angle (turnOf piv angleDeg s) }
  else if s.id = '-' then
    { st with angle := jsSub st.angle (turnOf piv angleDeg s) }
  else if s.id = '[' then
    { st with
      stack := frameWrite st.stack st.stackTop
        ⟨st.x, st.y, st.angle, st.depth, st.branchId⟩
      stackTop := st.stackTop + 1
      depth := jsAdd st.depth (some 1)
      branchId := some st.nextBranchId
      nextBranchId := st.nextBranchId + 1 }
  else if s.id = ']' then
    if st.stackTop = 0 then st
    else
      let f := frameRead st.stack (st.stackTop - 1)
      { st with
        x := f.fx
        y := f.fy
        angle := f.fangle
        depth := f.fdepth
        branchId := f.fbranch
        stackTop := st.stackTop - 1 }
  else if s.id = '|' then
    { st with angle := jsAdd st.angle (some piv) }
  else st

/-- The initial `interpretFast` state: origin, heading `PI/2`, depth and
branch 0, zeroed stack arrays. -/
def fastInit (piv : ℚ) : FastState :=
  ⟨some 0, some 0, some (piv / 2), some 0, some 0, 1,
    fun _ => ⟨some 0, some 0, some 0, some 0, some 0⟩, 0, []⟩

/-- The interpretation pass of `interpretFast` (fast-turtle module). -/
def interpretFast (cosF sinF : ℚ → ℚ) (piv angleDeg : ℚ)
    (syms : List TSym) : FastState :=
  syms.foldl (fastStep cosF sinF piv angleDeg) (fastInit piv)

/-- The state of the idealised variant of `interpretFast` whose branch
stack is unbounded (the behaviour the 256-entry arrays implement while
the nesting depth stays within them). -/
structure IdealState where
  x : JsNum
  y : JsNum
  angle : JsNum
  depth : JsNum
  branchId : JsNum
  nextBranchId : ℚ
  stack : List Frame
  segs : List FastSeg

/-- One iteration of the idealised loop: identical to `fastStep` except
that push and pop act on an unbounded list. -/
def idealStep (cosF sinF : ℚ → ℚ) (piv angleDeg : ℚ)
    (st : IdealState) (s : TSym) : IdealState :=
  if s.id = 'F' ∨ s.id = 'G' ∨ s.id = 'A' ∨ s.id = 'B' then
    let step := stepLen s
    let newX := jsAdd st.x (jsMul (jsApp cosF st.angle) step)
    let newY := jsAdd st.y (jsMul (jsApp sinF st.angle) step)
    { st with
      x := newX
      y := newY
      segs := st.segs ++ [⟨st.x, st.y, newX, newY, st.depth, st.branchId⟩] }
  else if s.id = 'f' ∨ s.id = 'g' then
    { st with
      x := jsAdd st.x (jsMul (jsApp cosF st.angle) (stepLen s))
      y := jsAdd st.y (jsMul (jsApp sinF st.angle) (stepLen s)) }
  else if s.id = '+' then
    { st with angle := jsAdd st.angle (turnOf piv angleDeg s) }
  else if s.id = '-' then
    { st with angle := jsSub st.angle (turnOf piv angleDeg s) }
  else if s.id = '[' then
    { st with
      stack := ⟨st.x, st.y, st.angle, st.depth, st.branchId⟩ :: st.stack
      depth := jsAdd st.depth (some 1)
      branchId := some st.nextBranchId
      nextBranchId := st.nextBranchId + 1 }
  else if s.id = ']' then
    match st.stack with
    | [] => st
    | f :: rest =>
      { st with
        x := f.fx
        y := f.fy
        angle := f.fangle
        depth := f.fdepth
        branchId := f.fbranch
        stack := rest }
  else if s.id = '|' then
    { st with angle := jsAdd st.angle (some piv) }
  else st

/-- Initial idealised state. -/
def idealInit (piv : ℚ) : IdealState :=
  ⟨some 0, some 0, some (piv / 2), some 0, some 0, 1, [], []⟩

/-- The idealised (unbounded-stack) interpretation pass, the comparison
point for the stack-restore claim. -/
def interpretFastIdealStack (cosF sinF : ℚ → ℚ) (piv angleDeg : ℚ)
    (syms : List TSym) : IdealState :=
  syms.foldl (idealStep cosF sinF piv angleDeg) (idealInit piv)

/-- The running value of `stackTop` after a symbol list, started from
`t` (pushes always increment; pops decrement only above zero), maximised
over the run — the bracket nesting profile of the input. -/
def maxTop (t : ℕ) : List TSym → ℕ
  | [] => t
  | s :: rest =>
    if s.id = '[' then max (t + 1) (maxTop (t + 1) rest)
    else if s.id = ']' then maxTop (t - 1) rest
    else maxTop t rest

/-- The fast state and the idealised state describe the same turtle: all
scalar fields and segments agree, and the idealised stack is exactly the
live prefix of the 256-entry arrays (top first). -/
def corr (fs : FastState) (is : IdealState) : Prop :=
  is.x = fs.x ∧ is.y = fs.y ∧ is.angle = fs.angle ∧ is.depth = fs.depth ∧
    is.branchId = fs.branchId ∧ is.nextBranchId = fs.nextBranchId ∧
    is.segs = fs.segs ∧ fs.stackTop ≤ 256 ∧
    is.stack = ((List.range fs.stackTop).reverse.map (frameRead fs.stack))

/-- Reading an index other than the written one is unaffected. -/
theorem frameRead_frameWrite_ne (stack : Fin 256 → Frame) (t i : ℕ)
    (f : Frame) (hne : i ≠ t) :
    frameRead (frameWrite stack t f) i = frameRead stack i := by
  unfold frameRead frameWrite
  by_cases ht : t < 256
  · by_cases hi : i < 256
    · simp only [dif_pos ht, dif_pos hi]
      rw [Function.update_noteq]
      intro hfin
      exact hne (by simpa using congrArg Fin.val hfin)
    · simp [dif_pos ht, dif_neg hi]
  · simp [dif_neg ht]

/-- Reading back an in-bounds write. -/
theorem frameRead_frameWrite_same (stack : Fin 256 → Frame) (t : ℕ)
    (f : Frame) (ht : t < 256) :
    frameRead (frameWrite stack t f) t = f := by
  unfold frameRead frameWrite
  simp [dif_pos ht]

/-- An in-bounds push extends the live prefix of the stack arrays by the
pushed frame. -/
theorem frames_push (stack : Fin 256 → Frame) (t : ℕ) (f : Frame)
    (ht : t < 256) :
    (List.range (t + 1)).reverse.map (frameRead (frameWrite stack t f)) =
      f :: (List.range t).reverse.map (frameRead stack) := by
  rw [List.range_succ, List.reverse_append]
  simp only [List.reverse_singleton, List.singleton_append, List.map_cons]
  congr 1
  · exact frameRead_frameWrite_same stack t f ht
  · apply List.map_congr_left
    intro i hi
    have : i < t := by
      have := List.mem_range.mp (List.mem_reverse.mp hi)
      exact this
    exact frameRead_frameWrite_ne stack t i f (by omega)

/-- While the nesting profile stays within the 256-entry stack arrays,
`interpretFast` and the unbounded-stack ideal agree step for step. -/
theorem runFastIdeal (cosF sinF : ℚ → ℚ) (piv angleDeg : ℚ) :
    ∀ (syms : List TSym) (fs : FastState) (is : IdealState),
      corr fs is → maxTop fs.stackTop syms ≤ 256 →
      corr (List.foldl (fastStep cosF sinF piv angleDeg) fs syms)
        (List.foldl (idealStep cosF sinF piv angleDeg) is syms) := by
  intro syms
  induction syms with
  | nil => intro fs is h _; exact h
  | cons s rest ih =>
    intro fs is h hd
    obtain ⟨hx, hy, hang, hdep, hbr, hnb, hsegs, htop, hstk⟩ := h
    simp only [List.foldl_cons]
    by_cases h1 : s.id = 'F' ∨ s.id = 'G' ∨ s.id = 'A' ∨ s.id = 'B'
    · have hno1 : s.id ≠ '[' := by rcases h1 with h | h | h | h <;> (rw [h]; decide)
      have hno2 : s.id ≠ ']' := by rcases h1 with h | h | h | h <;> (rw [h]; decide)
      apply ih
      · simp only [fastStep, idealStep, if_pos h1]
        exact ⟨by rw [hx, hang], by rw [hy, hang], hang, hdep, hbr, hnb,
          by rw [hsegs, hx, hy, hang, hdep, hbr], htop, hstk⟩
      · have : maxTop fs.stackTop (s :: rest) = maxTop fs.stackTop rest := by
          simp [maxTop, hno1, hno2]
        simp only [fastStep, if_pos h1]
        rw [this] at hd
        exact hd
    · by_cases h2 : s.id = 'f' ∨ s.id = 'g'
      · have hno1 : s.id ≠ '[' := by rcases h2 with h | h <;> (rw [h]; decide)
        have hno2 : s.id ≠ ']' := by rcases h2 with h | h <;> (rw [h]; decide)
        apply ih
        · simp only [fastStep, idealStep, if_neg h1, if_pos h2]
          exact ⟨by rw [hx, hang], by rw [hy, hang], hang, hdep, hbr, hnb,
            hsegs, htop, hstk⟩
        · have : maxTop fs.stackTop (s :: rest) = maxTop fs.stackTop rest := by
            simp [maxTop, hno1, hno2]
          simp only [fastStep, if_neg h1, if_pos h2]
          rw [this] at hd
          exact hd
      · by_cases h3 : s.id = '+'
        · have hno1 : s.id ≠ '[' := by rw [h3]; decide
          have hno2 : s.id ≠ ']' := by rw [h3]; decide
          apply ih
          · simp only [fastStep, idealStep, if_neg h1, if_neg h2, if_pos h3]
            exact ⟨hx, hy, by rw [hang], hdep, hbr, hnb, hsegs, htop, hstk⟩
          · have : maxTop fs.stackTop (s :: rest) = maxTop fs.stackTop rest := by
              simp [maxTop, hno1, hno2]
            simp only [fastStep, if_neg h1, if_neg h2, if_pos h3]
            rw [this] at hd
            exact hd
        · by_cases h4 : s.id = '-'
          · have hno1 : s.id ≠ '[' := by rw [h4]; decide
            have hno2 : s.id ≠ ']' := by rw [h4]; decide
            apply ih
            · simp only [fastStep, idealStep, if_neg h1, if_neg h2, if_neg h3,
                if_pos h4]
              exact ⟨hx, hy, by rw [hang], hdep, hbr, hnb, hsegs, htop, hstk⟩
            · have : maxTop fs.stackTop (s :: rest) = maxTop fs.stackTop rest := by
                simp [maxTop, hno1, hno2]
              simp only [fastStep, if_neg h1, if_neg h2, if_neg h3, if_pos h4]
              rw [this] at hd
              exact hd
          · by_cases h5 : s.id = '['
            · have hlt : fs.stackTop + 1 ≤ 256 := by
                have : maxTop fs.stackTop (s :: rest) =
                    max (fs.stackTop + 1) (maxTop (fs.stackTop + 1) rest) := by
                  simp [maxTop, h5]
                rw [this] at hd
                omega
              apply ih
              · simp only [fastStep, idealStep, if_neg h1, if_neg h2, if_neg h3,
                  if_neg h4, if_pos h5]
                refine ⟨hx, hy, hang, by rw [hdep], by rw [hnb], by rw [hnb],
                  hsegs, hlt, ?_⟩
                rw [frames_push fs.stack fs.stackTop _ (by omega)]
                rw [hx, hy, hang, hdep, hbr, hstk]
              · have : maxTop fs.stackTop (s :: rest) =
                    max (fs.stackTop + 1) (maxTop (fs.stackTop + 1) rest) := by
                  simp [maxTop, h5]
                rw [this] at hd
                simp only [fastStep, if_neg h1, if_neg h2, if_neg h3, if_neg h4,
                  if_pos h5]
                omega
            · by_cases h6 : s.id = ']'
              · have hmt : maxTop fs.stackTop (s :: rest) =
                    maxTop (fs.stackTop - 1) rest := by
                  simp [maxTop, h5, h6]
                rw [hmt] at hd
                by_cases ht0 : fs.stackTop = 0
                · have hnil : is.stack = [] := by rw [hstk, ht0]; simp
                  apply ih
                  · simp only [fastStep, idealStep, if_neg h1, if_neg h2,
                      if_neg h3, if_neg h4, if_neg h5, if_pos h6, if_pos ht0,
                      hnil]
                    exact ⟨hx, hy, hang, hdep, hbr, hnb, hsegs, htop, hstk⟩
                  · simp only [fastStep, if_neg h1, if_neg h2, if_neg h3,
                      if_neg h4, if_neg h5, if_pos h6, if_pos ht0]
                    rw [ht0] at hd ⊢
                    simpa using hd
                · obtain ⟨n, hn⟩ : ∃ n, fs.stackTop = n + 1 :=
                    ⟨fs.stackTop - 1, by omega⟩
                  have hcons : is.stack = frameRead fs.stack n ::
                      (List.range n).reverse.map (frameRead fs.stack) := by
                    rw [hstk, hn, List.range_succ, List.reverse_append]
                    simp
                  have hidx : fs.stackTop - 1 = n := by omega
                  apply ih
                  · simp only [fastStep, idealStep, if_neg h1, if_neg h2,
                      if_neg h3, if_neg h4, if_neg h5, if_pos h6, if_neg ht0,
                      hcons, hidx]
                    exact ⟨rfl, rfl, rfl, rfl, rfl, hnb, hsegs,
                      by show n ≤ 256; omega, rfl⟩
                  · simp only [fastStep, if_neg h1, if_neg h2, if_neg h3,
                      if_neg h4, if_neg h5, if_pos h6, if_neg ht0]
                    exact hd
              · by_cases h7 : s.id = '|'
                · have hmt : maxTop fs.stackTop (s :: rest) =
                      maxTop fs.stackTop rest := by
                    simp [maxTop, h5, h6]
                  rw [hmt] at hd
                  apply ih
                  · simp only [fastStep, idealStep, if_neg h1, if_neg h2,
                      if_neg h3, if_neg h4, if_neg h5, if_neg h6, if_pos h7]
                    exact ⟨hx, hy, by rw [hang], hdep, hbr, hnb, hsegs, htop,
                      hstk⟩
                  · simp only [fastStep, if_neg h1, if_neg h2, if_neg h3,
                      if_neg h4, if_neg h5, if_neg h6, if_pos h7]
                    exact hd
                · have hmt : maxTop fs.stackTop (s :: rest) =
                      maxTop fs.stackTop rest := by
                    simp [maxTop, h5, h6]
                  rw [hmt] at hd
                  apply ih
                  · simp only [fastStep, idealStep, if_neg h1, if_neg h2,
                      if_neg h3, if_neg h4, if_neg h5, if_neg h6, if_neg h7]
                    exact ⟨hx, hy, hang, hdep, hbr, hnb, hsegs, htop, hstk⟩
                  · simp only [fastStep, if_neg h1, if_neg h2, if_neg h3,
                      if_neg h4, if_neg h5, if_neg h6, if_neg h7]
                    exact hd

/-- Trivial concrete stand-in for `Math.cos` used by witnesses. -/
def cos0 : ℚ → ℚ := fun _ => 0

/-- Trivial concrete stand-in for `Math.sin` used by witnesses. -/
def sin0 : ℚ → ℚ := fun _ => 0

/-- A bare `[` symbol. -/
def lbr : TSym := ⟨'[', []⟩

/-- A bare `]` symbol. -/
def rbr : TSym := ⟨']', []⟩

/-- 256 nested `[`, a turn, then the 257th `[` whose push is discarded,
and the `]` matching it. -/
def deepInput : List TSym :=
  List.replicate 256 lbr ++ [⟨'+', []⟩, lbr, rbr]

/-- The same run stopped immediately before the 257th `[`: its state is
what that `[` tries to save. -/
def deepSaved : List TSym := List.replicate 256 lbr ++ [⟨'+', []⟩]

/-- A run of `[` symbols leaves the heading unchanged and increments
`stackTop` once per bracket. -/
theorem foldl_brackets_angle (cosF sinF : ℚ → ℚ) (piv angleDeg : ℚ)
    (k : ℕ) : ∀ st : FastState,
    (List.foldl (fastStep cosF sinF piv angleDeg) st
      (List.replicate k lbr)).angle = st.angle ∧
    (List.foldl (fastStep cosF sinF piv angleDeg) st
      (List.replicate k lbr)).stackTop = st.stackTop + k := by
  induction k with
  | zero => intro st; exact ⟨rfl, rfl⟩
  | succ k ih =>
    intro st
    rw [List.replicate_succ, List.foldl_cons]
    obtain ⟨ha, ht⟩ := ih (fastStep cosF sinF piv angleDeg st lbr)
    refine ⟨ha.trans rfl, ?_⟩
    rw [ht]
    show st.stackTop + 1 + k = st.stackTop + (k + 1)
    omega

/-- The `]` transition of `fastStep` on a nonempty stack counter. -/
theorem fastStep_rbr (cosF sinF : ℚ → ℚ) (piv angleDeg : ℚ)
    (st : FastState) (h : ¬st.stackTop = 0) :
    fastStep cosF sinF piv angleDeg st rbr =
      { st with
        x := (frameRead st.stack (st.stackTop - 1)).fx
        y := (frameRead st.stack (st.stackTop - 1)).fy
        angle := (frameRead st.stack (st.stackTop - 1)).fangle
        depth := (frameRead st.stack (st.stackTop - 1)).fdepth
        branchId := (frameRead st.stack (st.stackTop - 1)).fbranch
        stackTop := st.stackTop - 1 } := by
  have c1 : ¬((']' : Char) = 'F' ∨ (']' : Char) = 'G' ∨ (']' : Char) = 'A' ∨
      (']' : Char) = 'B') := by decide
  have c2 : ¬((']' : Char) = 'f' ∨ (']' : Char) = 'g') := by decide
  have c3 : ¬(']' : Char) = '+' := by decide
  have c4 : ¬(']' : Char) = '-' := by decide
  have c5 : ¬(']' : Char) = '[' := by decide
  have c6 : rbr.id = ']' := rfl
  simp only [fastStep, c6, if_neg c1, if_neg c2, if_neg c3, if_neg c4,
    if_neg c5, if_neg h, eq_self_iff_true, if_true]

set_option maxRecDepth 8192 in
/-- C9: `interpretFast` keeps its branch stack in fixed 256-entry typed
arrays.  (i) For every input whose nesting profile stays within 256, the
interpreter agrees exactly (state, segments and live stack) with the
unbounded-stack ideal.  (ii) At nesting depth 257 the push of the 257th
`[` is silently discarded, so the state restored by its matching `]` —
an `undefined` (`none`) read past the arrays' end — is no longer the
heading saved at that `[` (`some 2`, with `PI` interpreted as `2` and a
90° turn angle). -/
theorem interpretFast_stack_limit_256 :
    (∀ (cosF sinF : ℚ → ℚ) (piv angleDeg : ℚ) (syms : List TSym),
        maxTop 0 syms ≤ 256 →
        corr (interpretFast cosF sinF piv angleDeg syms)
          (interpretFastIdealStack cosF sinF piv angleDeg syms)) ∧
      (interpretFast cos0 sin0 2 90 deepSaved).angle = some 2 ∧
      (interpretFast cos0 sin0 2 90 deepInput).angle = none := by
  have hbase := foldl_brackets_angle cos0 sin0 2 90 256 (fastInit 2)
  have hangle : (List.foldl (fastStep cos0 sin0 2 90) (fastInit 2)
      (List.replicate 256 lbr)).angle = some 1 := by
    rw [hbase.1]
    show some ((2 : ℚ) / 2) = some 1
    norm_num
  have htop : (List.foldl (fastStep cos0 sin0 2 90) (fastInit 2)
      (List.replicate 256 lbr)).stackTop = 256 := by
    rw [hbase.2]
    rfl
  refine ⟨?_, ?_, ?_⟩
  · intro cosF sinF piv angleDeg syms h
    refine runFastIdeal cosF sinF piv angleDeg syms (fastInit piv)
      (idealInit piv) ⟨rfl, rfl, rfl, rfl, rfl, rfl, rfl, ?_, rfl⟩ h
    show (0 : ℕ) ≤ 256
    omega
  · simp only [interpretFast, deepSaved]
    rw [List.foldl_append]
    simp only [List.foldl_cons, List.foldl_nil]
    set st := List.foldl (fastStep cos0 sin0 2 90) (fastInit 2)
      (List.replicate 256 lbr) with hst
    have e : (fastStep cos0 sin0 2 90 st ⟨'+', []⟩).angle =
        jsAdd st.angle (some (90 * 2 / 180)) := rfl
    rw [e, hangle]
    show some ((1 : ℚ) + 90 * 2 / 180) = some 2
    norm_num
  · simp only [interpretFast, deepInput]
    rw [List.foldl_append]
    simp only [List.foldl_cons, List.foldl_nil]
    set st := List.foldl (fastStep cos0 sin0 2 90) (fastInit 2)
      (List.replicate 256 lbr) with hst
    set st2 := fastStep cos0 sin0 2 90 st ⟨'+', []⟩ with hst2
    have h1 : st2.stackTop = 256 := by
      rw [show st2.stackTop = st.stackTop from rfl, htop]
    set st3 := fastStep cos0 sin0 2 90 st2 lbr with hst3
    have h2 : st3.stackTop = 257 := by
      rw [show st3.stackTop = st2.stackTop + 1 from rfl, h1]
    have hne : ¬st3.stackTop = 0 := by rw [h2]; omega
    rw [fastStep_rbr cos0 sin0 2 90 st3 hne]
    show (frameRead st3.stack (st3.stackTop - 1)).fangle = none
    rw [h2]
    show (frameRead st3.stack 256).fangle = none
    rw [show frameRead st3.stack 256 = ⟨none, none, none, none, none⟩
      from rfl]

/-- A small bracketed input, within the stack bound. -/
def smallNest : List TSym := [lbr, ⟨'F', []⟩, rbr]

/-- Witness for C9 at a depth-1 input. -/
theorem interpretFast_stack_limit_256_witness :
    corr (interpretFast cos0 sin0 2 90 smallNest)
      (interpretFastIdealStack cos0 sin0 2 90 smallNest) :=
  interpretFast_stack_limit_256.1 cos0 sin0 2 90 smallNest (by decide)

/-- A saved state of `interpretSymbols` (CPU turtle): position, heading,
depth and branch id (`{ x, y, z, angle, depth, branchId }`). -/
structure CpuFrame where
  cx : ℚ
  cy : ℚ
  cz : ℚ
  cangle : ℚ
  cdepth : ℕ
  cbranch : ℕ
deriving DecidableEq, Repr

/-- A line segment emitted by `interpretSymbols` (colour, computed from
the depth, omitted). -/
structure CpuSeg where
  sx : ℚ
  sy : ℚ
  sz : ℚ
  ex : ℚ
  ey : ℚ
  ez : ℚ
  segDepth : ℕ
  segBranch : ℕ
deriving DecidableEq, Repr

/-- The mutable state of the `interpretSymbols` loop.  The JS `Array`
stack grows on demand and is only ever accessed at the top, so it is a
list. -/
structure CpuState where
  x : ℚ
  y : ℚ
  z : ℚ
  angle : ℚ
  depth : ℕ
  branchId : ℕ
  nextBranchId : ℕ
  stack : List CpuFrame
  segs : List CpuSeg

/-- One iteration of the `interpretSymbols` loop (`cpu-turtle`): `F`/`G`
draw, `f`/`g` move, `+`/`-` turn by the fixed configured angle, `[`
pushes, `]` pops (no-op on an empty stack), `|` turns by `PI`; `z` is
constant. -/
def cpuStep (cosF sinF : ℚ → ℚ) (piv angleDeg stepSize : ℚ)
    (st : CpuState) (s : TSym) : CpuState :=
  if s.id = 'F' ∨ s.id = 'G' then
    let newX := st.x + cosF st.angle * stepSize
    let newY := st.y + sinF st.angle * stepSize
    { st with
      x := newX
      y := newY
      segs := st.segs ++
        [⟨st.x, st.y, st.z, newX, newY, st.z, st.depth, st.branchId⟩] }
  else if s.id = 'f' ∨ s.id = 'g' then
    { st with
      x := st.x + cosF st.angle * stepSize
      y := st.y + sinF st.angle * stepSize }
  else if s.id = '+' then
    { st with angle := st.angle + angleDeg * piv / 180 }
  else if s.id = '-' then
    { st with angle := st.angle - angleDeg * piv / 180 }
  else if s.id = '[' then
    { st with
      stack := ⟨st.x, st.y, st.z, st.angle, st.depth, st.branchId⟩ :: st.stack
      depth := st.depth + 1
      branchId := st.nextBranchId
      nextBranchId := st.nextBranchId + 1 }
  else if s.id = ']' then
    match st.stack with
    | [] => st
    | f :: rest =>
      { st with
        x := f.cx
        y := f.cy
        angle := f.cangle
        depth := f.cdepth
        branchId := f.cbranch
        stack := rest }
  else if s.id = '|' then
    { st with angle := st.angle + piv }
  else st

/-- The initial `interpretSymbols` state: the configured initial position
and heading (in radians), depth and branch 0. -/
def cpuInit (piv x0 y0 z0 initAngleDeg : ℚ) : CpuState :=
  ⟨x0, y0, z0, initAngleDeg * piv / 180, 0, 0, 1, [], []⟩

/-- `interpretSymbols` of the CPU turtle module (reference sequential
interpreter); the post-pass (bounds, normalisation, colours) is
downstream of this state. -/
def interpretSymbols (cosF sinF : ℚ → ℚ)
    (piv angleDeg stepSize x0 y0 z0 initAngleDeg : ℚ)
    (syms : List TSym) : CpuState :=
  syms.foldl (cpuStep cosF sinF piv angleDeg stepSize)
    (cpuInit piv x0 y0 z0 initAngleDeg)

/-- The sequence `[ + F ]`. -/
def seqBPF : List TSym :=
  [⟨'[', []⟩, ⟨'+', []⟩, ⟨'F', []⟩, ⟨']', []⟩]

/-- C7: after the sequential turtle interpreter processes the `]` of
`[ + F ]`, its position, heading, depth and branch id all equal the
values held immediately before the matching `[` (the initial state) —
for the reference interpreter `interpretSymbols` and for the fast
interpreter `interpretFast`, for every configuration and every
interpretation of `cos`/`sin`/`PI`. -/
theorem bracket_restores_position_heading (cosF sinF : ℚ → ℚ)
    (piv angleDeg stepSize x0 y0 z0 initAngleDeg : ℚ) :
    ((interpretSymbols cosF sinF piv angleDeg stepSize x0 y0 z0 initAngleDeg
        seqBPF).x = x0 ∧
      (interpretSymbols cosF sinF piv angleDeg stepSize x0 y0 z0 initAngleDeg
        seqBPF).y = y0 ∧
      (interpretSymbols cosF sinF piv angleDeg stepSize x0 y0 z0 initAngleDeg
        seqBPF).angle = initAngleDeg * piv / 180 ∧
      (interpretSymbols cosF sinF piv angleDeg stepSize x0 y0 z0 initAngleDeg
        seqBPF).depth = 0 ∧
      (interpretSymbols cosF sinF piv angleDeg stepSize x0 y0 z0 initAngleDeg
        seqBPF).branchId = 0) ∧
    ((interpretFast cosF sinF piv angleDeg seqBPF).x = (fastInit piv).x ∧
      (interpretFast cosF sinF piv angleDeg seqBPF).y = (fastInit piv).y ∧
      (interpretFast cosF sinF piv angleDeg seqBPF).angle =
        (fastInit piv).angle ∧
      (interpretFast cosF sinF piv angleDeg seqBPF).depth =
        (fastInit piv).depth ∧
      (interpretFast cosF sinF piv angleDeg seqBPF).branchId =
        (fastInit piv).branchId) :=
  ⟨⟨rfl, rfl, rfl, rfl, rfl⟩, ⟨rfl, rfl, rfl, rfl, rfl⟩⟩

/-! ## §5  Grammar parser (`parseGrammar` of the grammar parser module —
the current parser, which tokenizes `:` as a `COLON` token and supports
parametric rules)

Tokens carry no line/column positions (the source tracks them only for
error messages).  `parseExpression` and `parseFloat` — separate modules —
are abstracted as the total parameters `pExpr` and `pFloat` (`pFloat`
models `parseFloat(p) || 0` as a whole); the claim's inputs never reach
them, so every theorem quantifies over them.  Loops whose progress
depends on helper consumption take a fuel argument that counts remaining
iterations; the fuel chosen by `parseGrammar` exceeds the iteration count
of every terminating parse. -/

/-- The token type of the parser's lexer. -/
inductive PToken
  | SYMBOL (c : Char)
  | ARROW
  | NEWLINE
  | LPAREN
  | RPAREN
  | COMMA
  | COLON
  | NUMBER (s : List Char)
  | EXPR (s : List Char)
  | EOF
deriving DecidableEq, Repr

/-- The `value` string of a token (used when collecting expression and
condition text). -/
def tokText : PToken → List Char
  | .SYMBOL c => [c]
  | .ARROW => ['-', '>']
  | .NEWLINE => ['\n']
  | .LPAREN => ['(']
  | .RPAREN => [')']
  | .COMMA => [',']
  | .COLON => [':']
  | .NUMBER s => s
  | .EXPR s => s
  | .EOF => []

/-- `isValidSymbol` of the parser: the fixed symbol alphabet. -/
def isValidSymbol (c : Char) : Bool :=
  "FfGg+-&^\\|/[]\x7b\x7d.:ABCDEFGHIJKLMNOPQRSTUVWXYZabcdefghijklmnopqrstuvwxyz".toList.contains c

/-- A character of a numeric literal (digit or dot). -/
def numChar (c : Char) : Bool := c.isDigit || c = '.'

/-- The lexical class of a character, given one character of lookahead —
the cascade of `if` tests of the source tokenizer, in source order. -/
inductive CClass
  | newline | space | comment | arrowTwo | arrowOne
  | lparen | rparen | comma | colon | number
  | exprTwo | exprOne | symbol | skipped
deriving DecidableEq, Repr

/-- Whether the lookahead character is a digit. -/
def nextDigit : Option Char → Bool
  | some d => d.isDigit
  | none => false

/-- Classify one input character (`next` is the following character). -/
def charClass (c : Char) (next : Option Char) : CClass :=
  if c = '\n' then .newline
  else if c = ' ' ∨ c = '\t' ∨ c = '\r' then .space
  else if c = '#' then .comment
  else if c = '-' ∧ next = some '>' then .arrowTwo
  else if c = '→' then .arrowOne
  else if c = '(' then .lparen
  else if c = ')' then .rparen
  else if c = ',' then .comma
  else if c = ':' then .colon
  else if c.isDigit ∨ (c = '.' ∧ nextDigit next = true) then .number
  else if c = '*' ∨ c = '%' ∨ c = '<' ∨ c = '>' ∨ c = '=' ∨ c = '!' then
    (if (c = '<' ∨ c = '>' ∨ c = '=' ∨ c = '!') ∧ next = some '=' then
      .exprTwo
    else .exprOne)
  else if c = '+' ∨ c = '−' ∨ c = '&' ∨ c = '^' ∨ c = '/' ∨ c = '|' ∨
      c = '\\' then .symbol
  else if c = '-' then .symbol
  else if isValidSymbol c then .symbol
  else .skipped

/-- `dropWhile` never lengthens a list (termination helper). -/
theorem dropWhileLenLe {α : Type} (p : α → Bool) :
    ∀ l : List α, (List.dropWhile p l).length ≤ l.length := by
  intro l
  induction l with
  | nil => simp
  | cons a t ih =>
    rw [List.dropWhile_cons]
    by_cases h : p a = true
    · simp only [h, if_true]
      exact Nat.le_succ_of_le ih
    · simp [h]

/-- The tokenizer loop (`tokenize` of the parser, without the final
`EOF`).  In the number branch the first character always satisfies
`numChar`, so consuming it up front agrees with the source's
`takeWhile`/`dropWhile` from the current position. -/
def tokLoop : List Char → List PToken
  | [] => []
  | c :: rest =>
    match charClass c rest.head? with
    | .newline => .NEWLINE :: tokLoop rest
    | .space => tokLoop rest
    | .comment => tokLoop (rest.dropWhile (fun d => ¬d = '\n'))
    | .arrowTwo => .ARROW :: tokLoop (rest.drop 1)
    | .arrowOne => .ARROW :: tokLoop rest
    | .lparen => .LPAREN :: tokLoop rest
    | .rparen => .RPAREN :: tokLoop rest
    | .comma => .COMMA :: tokLoop rest
    | .colon => .COLON :: tokLoop rest
    | .number =>
      .NUMBER (c :: rest.takeWhile numChar) :: tokLoop (rest.dropWhile numChar)
    | .exprTwo => .EXPR [c, '='] :: tokLoop (rest.drop 1)
    | .exprOne => .EXPR [c] :: tokLoop rest
    | .symbol => .SYMBOL c :: tokLoop rest
    | .skipped => tokLoop rest
termination_by l => l.length
decreasing_by
  all_goals simp
  all_goals first
    | omega
    | exact Nat.lt_succ_of_le (dropWhileLenLe _ _)

/-- `tokenize` of the parser: the loop plus the trailing `EOF`. -/
def tokenizeG (input : List Char) : List PToken := tokLoop input ++ [.EOF]

/-- A symbol of a parsed grammar: `Symbol` of the grammar types.  `params`
is `none` when the source leaves the field undefined (plain symbol). -/
structure PSym where
  id : Char
  params : Option (List ℚ)
deriving DecidableEq, Repr

/-- A D0L rule as produced by the parser. -/
structure PD0LRule where
  predecessor : Char
  successor : List PSym
  probability : Option ℚ
deriving DecidableEq, Repr

/-- One successor symbol of a parametric rule. -/
structure PParametricSuccessor where
  symbol : Char
  params : List Expression

/-- A parametric rule as produced by the parser. -/
structure PParametricRule where
  predecessor : Char
  params : List Char
  condition : Option Expression
  successor : List PParametricSuccessor
  probability : Option ℚ

/-- The parser's result record (`Grammar` of the grammar types). -/
structure PGrammar where
  axm : List PSym
  rules : List PD0LRule
  parametricRules : List PParametricRule

/-- A parse error (line/column dropped: they only feed the message). -/
structure PParseError where
  message : String
deriving DecidableEq, Repr

/-- `collectExpression` of the parser: gather expression text until an
unbalanced `)`, a top-level `,`, a newline or EOF.  The depth counter can
go below zero exactly once, at which point the source breaks without
consuming.  The source's final `trim()` is dropped: token values never
contain whitespace. -/
def collectExpr : List PToken → ℤ → List Char × List PToken
  | [], _ => ([], [])
  | t :: rest, d =>
    match t with
    | .LPAREN =>
      let r := collectExpr rest (d + 1)
      ((if d + 1 > 1 then ['('] else []) ++ r.1, r.2)
    | .RPAREN =>
      if d - 1 < 0 then ([], .RPAREN :: rest)
      else if d - 1 > 0 then
        let r := collectExpr rest (d - 1)
        (')' :: r.1, r.2)
      else ([], rest)
    | .COMMA =>
      if d = 1 then ([], .COMMA :: rest)
      else
        let r := collectExpr rest d
        (',' :: r.1, r.2)
    | .NEWLINE => ([], .NEWLINE :: rest)
    | .EOF => ([], .EOF :: rest)
    | _ =>
      let r := collectExpr rest d
      (tokText t ++ r.1, r.2)

/-- The run of consecutive `SYMBOL` tokens at the head of the list and
what follows it (the `potentialAxiom` collection loop). -/
def symRun : List PToken → List Char × List PToken
  | .SYMBOL c :: rest =>
    let r := symRun rest
    (c :: r.1, r.2)
  | toks => ([], toks)

/-- The parameter-name loop of a parametric rule head `F(l,w)`. -/
def paramNamesLoop : List PToken → List Char × List PToken
  | .SYMBOL c :: rest =>
    match rest with
    | .RPAREN :: r2 => ([c], r2)
    | _ =>
      let r := paramNamesLoop rest
      (c :: r.1, r.2)
  | .COMMA :: rest =>
    match rest with
    | .RPAREN :: r2 => ([], r2)
    | _ => paramNamesLoop rest
  | toks => ([], toks)

/-- The condition-text loop: collect token text until arrow, newline or
EOF. -/
def collectCond : List PToken → List Char × List PToken
  | [] => ([], [])
  | t :: rest =>
    match t with
    | .ARROW => ([], .ARROW :: rest)
    | .NEWLINE => ([], .NEWLINE :: rest)
    | .EOF => ([], .EOF :: rest)
    | _ =>
      let r := collectCond rest
      (tokText t ++ r.1, r.2)

/-- The parameter-collection loop inside `parseParametricSymbol`, with a
fuel bound on iterations (each iteration consumes at least one token, so
any fuel at least the token count is exact). -/
def paramsLoopF : ℕ → List PToken → List (List Char) × List PToken
  | 0, toks => ([], toks)
  | f + 1, toks =>
    match toks with
    | [] => ([], [])
    | .RPAREN :: _ => ([], toks)
    | .EOF :: _ => ([], toks)
    | .NEWLINE :: _ => ([], toks)
    | _ =>
      let r := collectExpr toks 0
      let ps := if r.1 = [] then [] else [r.1]
      match r.2 with
      | .COMMA :: rest2 =>
        let q := paramsLoopF f rest2
        (ps ++ q.1, q.2)
      | .RPAREN :: rest2 => (ps, rest2)
      | t2 =>
        let q := paramsLoopF f t2
        (ps ++ q.1, q.2)

/-- `parseSymbolSequence` of the parser: read plain symbols, descending
into the parametric form `F(…)` when the next token is `(` (the
`parseParametricSymbol` call is inlined: its guard always holds there).
`pFloat` abstracts the JS `parseFloat(p) || 0` applied to each collected
parameter string. -/
def parseSymbolSequenceF (pFloat : List Char → ℚ) :
    ℕ → List PToken → List PSym × List PToken
  | 0, toks => ([], toks)
  | f + 1, toks =>
    match toks with
    | .SYMBOL c :: .LPAREN :: rest =>
      let r := paramsLoopF f rest
      let q := parseSymbolSequenceF pFloat f r.2
      (⟨c, some (r.1.map pFloat)⟩ :: q.1, q.2)
    | .SYMBOL c :: rest =>
      let q := parseSymbolSequenceF pFloat f rest
      (⟨c, none⟩ :: q.1, q.2)
    | _ => ([], toks)

/-- `parseParametricSequence` of the parser; `pExpr` abstracts
`parseExpression` on each collected parameter string (total, as in the
source, where a catch handler substitutes the literal 0). -/
def parseParametricSequenceF (pExpr : List Char → Expression) :
    ℕ → List PToken → List PParametricSuccessor × List PToken
  | 0, toks => ([], toks)
  | f + 1, toks =>
    match toks with
    | .SYMBOL c :: .LPAREN :: rest =>
      let r := paramsLoopF f rest
      let q := parseParametricSequenceF pExpr f r.2
      (⟨c, r.1.map pExpr⟩ :: q.1, q.2)
    | .SYMBOL c :: rest =>
      let q := parseParametricSequenceF pExpr f rest
      (⟨c, []⟩ :: q.1, q.2)
    | _ => ([], toks)

/-- The trailing probability check `(0.5)`: a `( NUMBER )` group right
after the successor. -/
def probCheck (pFloat : List Char → ℚ) :
    List PToken → Option ℚ × List PToken
  | .LPAREN :: .NUMBER s :: .RPAREN :: rest => (some (pFloat s), rest)
  | toks => (none, toks)

/-- Skip one newline token if present. -/
def skipNL : List PToken → List PToken
  | .NEWLINE :: rest => rest
  | toks => toks

/-- The axiom-declaration test: current token lowercases to `a`, the next
is a symbol lowercasing to `x`, and the whole symbol run spells a word
equal to or starting with `axiom` (encoded as: its first five lowercased
letters are `axiom`). -/
def isAxiomDecl : List PToken → Bool
  | toks@(.SYMBOL c1 :: .SYMBOL c2 :: _) =>
    c1.toLower == 'a' && c2.toLower == 'x' &&
      (let w := (symRun toks).1.map Char.toLower
       w.take 5 == ['a', 'x', 'i', 'o', 'm'] && decide (5 ≤ w.length))
  | _ => false

/-- The default-axiom fallback applied when the loop finishes with an
empty axiom. -/
def finishGrammar (axm : List PSym) (rules : List PD0LRule)
    (pRules : List PParametricRule) : PGrammar :=
  if axm = [] then
    match rules with
    | r :: _ => ⟨[⟨r.predecessor, none⟩], rules, pRules⟩
    | [] =>
      match pRules with
      | p :: _ => ⟨[⟨p.predecessor, some [1]⟩], rules, pRules⟩
      | [] => ⟨[⟨'F', none⟩], rules, pRules⟩
  else ⟨axm, rules, pRules⟩

/-- The line loop of `parseGrammar`.  `orig` is the full token list (the
fallback branch restarts from index 0).  Fuel counts loop iterations; the
fuel chosen by `parseGrammar` exceeds the iteration count of every
terminating parse, and exhaustion (reachable only on inputs on which the
source loops forever) reports an error. -/
def parseLinesF (pExpr : List Char → Expression) (pFloat : List Char → ℚ)
    (orig : List PToken) :
    ℕ → List PToken → List PSym → List PD0LRule → List PParametricRule →
    Except PParseError PGrammar
  | 0, _, _, _, _ => .error ⟨"out of fuel"⟩
  | f + 1, toks, axm, rules, pRules =>
    match toks with
    | [] => .ok (finishGrammar axm rules pRules)
    | .EOF :: _ => .ok (finishGrammar axm rules pRules)
    | .NEWLINE :: rest => parseLinesF pExpr pFloat orig f rest axm rules pRules
    | .SYMBOL c1 :: rest =>
      if isAxiomDecl (.SYMBOL c1 :: rest) then
        let run := symRun (.SYMBOL c1 :: rest)
        let t1 := match run.2 with
          | .COLON :: r => r
          | r => r
        let a := parseSymbolSequenceF pFloat t1.length t1
        parseLinesF pExpr pFloat orig f (skipNL a.2) a.1 rules pRules
      else
        let pn := match rest with
          | .LPAREN :: r => paramNamesLoop r
          | _ => (([] : List Char), rest)
        let cond := match pn.2 with
          | .COLON :: r =>
            let ce := collectCond r
            ((if ce.1 = [] then none else some (pExpr ce.1)), ce.2)
          | _ => ((none : Option Expression), pn.2)
        match cond.2 with
        | .ARROW :: t4 =>
          if pn.1 = [] then
            let s := parseSymbolSequenceF pFloat t4.length t4
            if s.1.isEmpty then .error ⟨"Expected successor symbols"⟩
            else
              let pr := probCheck pFloat s.2
              parseLinesF pExpr pFloat orig f (skipNL pr.2) axm
                (rules ++ [⟨c1, s.1, pr.1⟩]) pRules
          else
            let s := parseParametricSequenceF pExpr t4.length t4
            if s.1.isEmpty then .error ⟨"Expected successor symbols"⟩
            else
              let pr := probCheck pFloat s.2
              parseLinesF pExpr pFloat orig f (skipNL pr.2) axm rules
                (pRules ++ [⟨c1, pn.1, cond.1, s.1, pr.1⟩])
        | _ =>
          if rules.isEmpty && pRules.isEmpty && axm.isEmpty then
            let o2 := orig.dropWhile (fun t => t = .NEWLINE)
            let a := parseSymbolSequenceF pFloat o2.length o2
            parseLinesF pExpr pFloat orig f (skipNL a.2) a.1 rules pRules
          else .error ⟨"Expected arrow after predecessor"⟩
    | _ :: rest => parseLinesF pExpr pFloat orig f rest axm rules pRules

/-- `parseGrammar` of the current grammar parser. -/
def parseGrammar (pExpr : List Char → Expression)
    (pFloat : List Char → ℚ) (input : List Char) :
    Except PParseError PGrammar :=
  let toks := tokenizeG input
  parseLinesF pExpr pFloat toks (toks.length + 1)
    (toks.dropWhile (fun t => t = .NEWLINE)) [] [] []




/-! ### Lexical facts about the plain symbol alphabet -/

/-- The parser's valid-symbol alphabet as a character list. -/
def validChars : List Char :=
  "FfGg+-&^\\|/[]\x7b\x7d.:ABCDEFGHIJKLMNOPQRSTUVWXYZabcdefghijklmnopqrstuvwxyz".toList

/-- A plain axiom/successor character: a valid symbol other than `:`
(which lexes as `COLON`). -/
def plainSym (c : Char) : Bool := isValidSymbol c && !(c == ':')

theorem mem_validChars {c : Char} (h : isValidSymbol c = true) :
    c ∈ validChars := by
  have h2 : validChars.contains c = true := by
    simpa [isValidSymbol, validChars] using h
  exact List.mem_of_elem_eq_true h2

/-- Every valid symbol avoids each character treated specially by the
tokenizer ahead of the symbol cases, except the colon. -/
theorem validChars_props : ∀ d ∈ validChars,
    ¬d = '\n' ∧ ¬d = ' ' ∧ ¬d = '\t' ∧ ¬d = '\r' ∧ ¬d = '#' ∧ ¬d = '→' ∧
    ¬d = '(' ∧ ¬d = ')' ∧ ¬d = ',' ∧ d.isDigit = false ∧ ¬d = '*' ∧
    ¬d = '%' ∧ ¬d = '<' ∧ ¬d = '>' ∧ ¬d = '=' ∧ ¬d = '!' := by decide

/-- The lookahead restriction under which a character's lexical class is
independent of what follows: the next character (if any) is neither `>`
nor a digit. -/
def nextSafe : Option Char → Prop
  | none => True
  | some d => ¬d = '>' ∧ d.isDigit = false

/-- A plain (hence valid, non-colon) character always lexes as a symbol
when the following character is safe. -/
theorem charClass_plain (c : Char) (next : Option Char)
    (hc : plainSym c = true) (hn : nextSafe next) :
    charClass c next = .symbol := by
  have hv : isValidSymbol c = true := by
    simp [plainSym] at hc
    exact hc.1
  have hcol : ¬c = ':' := by
    simp [plainSym] at hc
    exact hc.2
  obtain ⟨h1, h2, h3, h4, h5, h6, h7, h8, h9, h10, h11, h12, h13, h14, h15,
    h16⟩ := validChars_props c (mem_validChars hv)
  have harr : ¬(c = '-' ∧ next = some '>') := by
    rintro ⟨-, hgt⟩
    cases next with
    | none => exact Option.noConfusion hgt
    | some d =>
      obtain ⟨hd, -⟩ := hn
      exact hd (Option.some.inj hgt)
  have hnum : ¬(c.isDigit = true ∨ (c = '.' ∧ nextDigit next = true)) := by
    rintro (hd | ⟨-, hdig⟩)
    · rw [h10] at hd
      exact Bool.noConfusion hd
    · cases next with
      | none => exact Bool.noConfusion hdig
      | some d =>
        obtain ⟨-, hdd⟩ := hn
        rw [nextDigit] at hdig
        rw [hdd] at hdig
        exact Bool.noConfusion hdig
  have hexpr : ¬(c = '*' ∨ c = '%' ∨ c = '<' ∨ c = '>' ∨ c = '=' ∨ c = '!') := by
    rintro (h | h | h | h | h | h)
    · exact h11 h
    · exact h12 h
    · exact h13 h
    · exact h14 h
    · exact h15 h
    · exact h16 h
  unfold charClass
  rw [if_neg h1, if_neg (by rintro (h | h | h) <;> [exact h2 h; exact h3 h; exact h4 h]),
    if_neg h5, if_neg harr, if_neg h6, if_neg h7, if_neg h8, if_neg h9,
    if_neg hcol, if_neg hnum, if_neg hexpr]
  by_cases hrot : c = '+' ∨ c = '−' ∨ c = '&' ∨ c = '^' ∨ c = '/' ∨ c = '|' ∨ c = '\\'
  · rw [if_pos hrot]
  · rw [if_neg hrot]
    by_cases hminus : c = '-'
    · rw [if_pos hminus]
    · rw [if_neg hminus, if_pos hv]

/-- A plain character is itself a safe lookahead. -/
theorem plainSym_nextSafe {c : Char} (hc : plainSym c = true) :
    ¬c = '>' ∧ c.isDigit = false := by
  have hv : isValidSymbol c = true := by
    simp [plainSym] at hc
    exact hc.1
  obtain ⟨-, -, -, -, -, -, -, -, -, h10, -, -, -, h14, -, -⟩ :=
    validChars_props c (mem_validChars hv)
  exact ⟨h14, h10⟩

/-! ### Tokenization of the claim's line shapes -/

theorem tokLoop_plain_cons (c : Char) (u : List Char) (hc : plainSym c = true)
    (hn : nextSafe u.head?) : tokLoop (c :: u) = .SYMBOL c :: tokLoop u := by
  rw [tokLoop.eq_def]
  simp [charClass_plain c u.head? hc hn]

theorem tokLoop_plain_append (S : List Char) (u : List Char)
    (hS : ∀ c ∈ S, plainSym c = true) (hu : nextSafe u.head?) :
    tokLoop (S ++ u) = S.map .SYMBOL ++ tokLoop u := by
  induction S with
  | nil => simp
  | cons c t ih =>
    have hc : plainSym c = true := hS c (List.mem_cons_self _ _)
    have ht : ∀ d ∈ t, plainSym d = true := fun d hd => hS d (List.mem_cons_of_mem c hd)
    have hn : nextSafe (t ++ u).head? := by
      cases t with
      | nil => simpa using hu
      | cons d t2 =>
        have := plainSym_nextSafe (ht d (List.mem_cons_self _ _))
        simpa [List.head?] using this
    rw [List.cons_append, tokLoop_plain_cons c (t ++ u) hc hn, ih ht]
    simp

theorem tokLoop_colon (u : List Char) :
    tokLoop (':' :: u) = .COLON :: tokLoop u := by
  rw [tokLoop.eq_def]
  simp [charClass]

theorem tokLoop_space (u : List Char) : tokLoop (' ' :: u) = tokLoop u := by
  rw [tokLoop.eq_def]
  simp [charClass]

theorem tokLoop_newline (u : List Char) :
    tokLoop ('\n' :: u) = .NEWLINE :: tokLoop u := by
  rw [tokLoop.eq_def]
  simp [charClass]

theorem tokLoop_arrow (u : List Char) :
    tokLoop ('-' :: '>' :: u) = .ARROW :: tokLoop u := by
  rw [tokLoop.eq_def]
  simp [charClass]

/-- The text of the declaration line `axiom: S`. -/
def axiomLine (S : List Char) : List Char :=
  'a' :: 'x' :: 'i' :: 'o' :: 'm' :: ':' :: ' ' :: (S ++ ['\n'])

/-- The text of the rule line `P -> Q`. -/
def ruleLine (p : Char) (q : List Char) : List Char :=
  p :: ' ' :: '-' :: '>' :: ' ' :: (q ++ ['\n'])

/-- The full input text: an axiom declaration followed by rule lines. -/
def grammarText (S : List Char) (rs : List (Char × List Char)) : List Char :=
  axiomLine S ++ (rs.map (fun r => ruleLine r.1 r.2)).flatten

/-- The tokens of the axiom line. -/
def axTokens (S : List Char) : List PToken :=
  .SYMBOL 'a' :: .SYMBOL 'x' :: .SYMBOL 'i' :: .SYMBOL 'o' :: .SYMBOL 'm' ::
    .COLON :: (S.map .SYMBOL ++ [.NEWLINE])

/-- The tokens of one rule line. -/
def ruleToks (r : Char × List Char) : List PToken :=
  .SYMBOL r.1 :: .ARROW :: (r.2.map .SYMBOL ++ [.NEWLINE])

theorem tokLoop_plain_cons2 (c d : Char) (u : List Char)
    (hc : plainSym c = true) (hd1 : ¬d = '>') (hd2 : d.isDigit = false) :
    tokLoop (c :: d :: u) = .SYMBOL c :: tokLoop (d :: u) :=
  tokLoop_plain_cons c (d :: u) hc ⟨hd1, hd2⟩

theorem tokLoop_axiomLine (S : List Char) (v : List Char)
    (hS : ∀ c ∈ S, plainSym c = true) :
    tokLoop (axiomLine S ++ v) =
      (.SYMBOL 'a' :: .SYMBOL 'x' :: .SYMBOL 'i' :: .SYMBOL 'o' :: .SYMBOL 'm' ::
        .COLON :: S.map .SYMBOL) ++ (.NEWLINE :: tokLoop v) := by
  have hb : axiomLine S ++ v =
      'a' :: 'x' :: 'i' :: 'o' :: 'm' :: ':' :: ' ' :: (S ++ ('\n' :: v)) := by
    simp [axiomLine]
  rw [hb,
    tokLoop_plain_cons2 'a' 'x' _ (by decide) (by decide) (by decide),
    tokLoop_plain_cons2 'x' 'i' _ (by decide) (by decide) (by decide),
    tokLoop_plain_cons2 'i' 'o' _ (by decide) (by decide) (by decide),
    tokLoop_plain_cons2 'o' 'm' _ (by decide) (by decide) (by decide),
    tokLoop_plain_cons2 'm' ':' _ (by decide) (by decide) (by decide),
    tokLoop_colon, tokLoop_space,
    tokLoop_plain_append S ('\n' :: v) hS ⟨by decide, by decide⟩,
    tokLoop_newline]
  simp

theorem tokLoop_ruleLine (p : Char) (q : List Char) (v : List Char)
    (hp : plainSym p = true) (hq : ∀ c ∈ q, plainSym c = true) :
    tokLoop (ruleLine p q ++ v) =
      (.SYMBOL p :: .ARROW :: q.map .SYMBOL) ++ (.NEWLINE :: tokLoop v) := by
  have hb : ruleLine p q ++ v =
      p :: ' ' :: '-' :: '>' :: ' ' :: (q ++ ('\n' :: v)) := by
    simp [ruleLine]
  rw [hb, tokLoop_plain_cons2 p ' ' _ hp (by decide) (by decide), tokLoop_space,
    tokLoop_arrow, tokLoop_space,
    tokLoop_plain_append q ('\n' :: v) hq ⟨by decide, by decide⟩,
    tokLoop_newline]
  simp

theorem tokLoop_ruleLines (rs : List (Char × List Char))
    (hrs : ∀ r ∈ rs, plainSym r.1 = true ∧ ∀ c ∈ r.2, plainSym c = true) :
    tokLoop ((rs.map (fun r => ruleLine r.1 r.2)).flatten) =
      (rs.map ruleToks).flatten := by
  induction rs with
  | nil =>
    rw [tokLoop.eq_def]
    rfl
  | cons r rest ih =>
    have hr := hrs r (List.mem_cons_self _ _)
    have hrest : ∀ x ∈ rest, plainSym x.1 = true ∧ ∀ c ∈ x.2, plainSym c = true :=
      fun x hx => hrs x (List.mem_cons_of_mem r hx)
    simp only [List.map_cons, List.flatten_cons]
    rw [tokLoop_ruleLine r.1 r.2 _ hr.1 hr.2, ih hrest]
    simp [ruleToks]

theorem tokenizeG_grammarText (S : List Char) (rs : List (Char × List Char))
    (hS : ∀ c ∈ S, plainSym c = true)
    (hrs : ∀ r ∈ rs, plainSym r.1 = true ∧ ∀ c ∈ r.2, plainSym c = true) :
    tokenizeG (grammarText S rs) =
      axTokens S ++ ((rs.map ruleToks).flatten ++ [.EOF]) := by
  rw [tokenizeG, grammarText, tokLoop_axiomLine S _ hS, tokLoop_ruleLines rs hrs]
  simp [axTokens]

/-! ### Parsing the claim's token shapes -/

theorem symRun_plain (w : List Char) (u : List PToken)
    (hu : u = [] ∨ ∃ t r, u = t :: r ∧ ∀ c, t ≠ .SYMBOL c) :
    symRun (w.map .SYMBOL ++ u) = (w, u) := by
  induction w with
  | nil =>
    rcases hu with h | ⟨t, r, ht, hns⟩
    · subst h
      rfl
    · subst ht
      rw [symRun.eq_def]
      cases t <;> simp_all
  | cons c t ih =>
    simp only [List.map_cons, List.cons_append]
    rw [symRun, ih]
    -- goal shape check

theorem parseSymbolSequenceF_step (pFloat : List Char → ℚ) (f : ℕ) (c : Char)
    (u : List PToken)
    (hu : (∃ d r, u = .SYMBOL d :: r) ∨ (∃ r, u = .NEWLINE :: r)) :
    parseSymbolSequenceF pFloat (f + 1) (.SYMBOL c :: u) =
      (⟨c, none⟩ :: (parseSymbolSequenceF pFloat f u).1,
       (parseSymbolSequenceF pFloat f u).2) := by
  rcases hu with ⟨d, r, h⟩ | ⟨r, h⟩ <;> subst h <;> rfl

theorem parseSymbolSequenceF_plain (pFloat : List Char → ℚ) (S : List Char) :
    ∀ (fuel : ℕ) (rr : List PToken), S.length ≤ fuel →
    parseSymbolSequenceF pFloat fuel (S.map .SYMBOL ++ .NEWLINE :: rr) =
      (S.map (fun c => ⟨c, none⟩), .NEWLINE :: rr) := by
  induction S with
  | nil =>
    intro fuel rr _
    cases fuel with
    | zero => rfl
    | succ f => rfl
  | cons c t ih =>
    intro fuel rr hf
    cases fuel with
    | zero => simp at hf
    | succ f =>
      have hf2 : t.length ≤ f := by
        simp at hf
        omega
      have hu : (∃ d r, (t.map PToken.SYMBOL ++ .NEWLINE :: rr) = .SYMBOL d :: r) ∨
          (∃ r, (t.map PToken.SYMBOL ++ .NEWLINE :: rr) = .NEWLINE :: r) := by
        cases t with
        | nil => exact Or.inr ⟨rr, rfl⟩
        | cons d t2 => exact Or.inl ⟨d, _, rfl⟩
      simp only [List.map_cons, List.cons_append]
      rw [parseSymbolSequenceF_step pFloat f c _ hu, ih f rr hf2]

theorem parseLinesF_eof_step (pExpr : List Char → Expression)
    (pFloat : List Char → ℚ) (orig : List PToken) (f : ℕ) (X : List PToken)
    (axm : List PSym) (rules : List PD0LRule) (pRules : List PParametricRule) :
    parseLinesF pExpr pFloat orig (f + 1) (.EOF :: X) axm rules pRules =
      .ok (finishGrammar axm rules pRules) := rfl

theorem parseLinesF_rule_step (pExpr : List Char → Expression)
    (pFloat : List Char → ℚ) (orig : List PToken) (f : ℕ) (c1 : Char)
    (M : List PToken) (axm : List PSym) (rules : List PD0LRule)
    (pRules : List PParametricRule) :
    parseLinesF pExpr pFloat orig (f + 1) (.SYMBOL c1 :: .ARROW :: M)
      axm rules pRules =
      (let s := parseSymbolSequenceF pFloat M.length M
       if s.1.isEmpty then .error ⟨"Expected successor symbols"⟩
       else
         let pr := probCheck pFloat s.2
         parseLinesF pExpr pFloat orig f (skipNL pr.2) axm
           (rules ++ [⟨c1, s.1, pr.1⟩]) pRules) := rfl

theorem parseLinesF_axiom_step (pExpr : List Char → Expression)
    (pFloat : List Char → ℚ) (orig : List PToken) (f : ℕ) (M : List PToken)
    (axm : List PSym) (rules : List PD0LRule) (pRules : List PParametricRule) :
    parseLinesF pExpr pFloat orig (f + 1)
      (.SYMBOL 'a' :: .SYMBOL 'x' :: .SYMBOL 'i' :: .SYMBOL 'o' :: .SYMBOL 'm' ::
        .COLON :: M) axm rules pRules =
      (let a := parseSymbolSequenceF pFloat M.length M
       parseLinesF pExpr pFloat orig f (skipNL a.2) a.1 rules pRules) := rfl

/-- One parsed plain symbol. -/
def mkPSym (c : Char) : PSym := ⟨c, none⟩

/-- The rule record the parser builds from a plain rule line. -/
def mkPRule (r : Char × List Char) : PD0LRule :=
  ⟨r.1, r.2.map mkPSym, none⟩

theorem parseLinesF_rules (pExpr : List Char → Expression)
    (pFloat : List Char → ℚ) (orig : List PToken)
    (rs : List (Char × List Char))
    (hrs : ∀ r ∈ rs, r.2 ≠ []) :
    ∀ (fuel : ℕ) (axm : List PSym) (rules : List PD0LRule),
      rs.length + 1 ≤ fuel → axm ≠ [] →
      parseLinesF pExpr pFloat orig fuel ((rs.map ruleToks).flatten ++ [.EOF])
          axm rules [] =
        .ok ⟨axm, rules ++ rs.map mkPRule, []⟩ := by
  induction rs with
  | nil =>
    intro fuel axm rules hf haxm
    cases fuel with
    | zero => omega
    | succ f =>
      simp only [List.map_nil, List.flatten_nil, List.nil_append]
      rw [parseLinesF_eof_step]
      unfold finishGrammar
      rw [if_neg haxm]
      simp
  | cons r rest ih =>
    intro fuel axm rules hf haxm
    cases fuel with
    | zero => omega
    | succ f =>
      have hr : r.2 ≠ [] := hrs r (List.mem_cons_self _ _)
      have hrest : ∀ x ∈ rest, x.2 ≠ [] := fun x hx => hrs x (List.mem_cons_of_mem r hx)
      have hsh : (((r :: rest).map ruleToks).flatten ++ [PToken.EOF]) =
          .SYMBOL r.1 :: .ARROW ::
            (r.2.map .SYMBOL ++ .NEWLINE :: ((rest.map ruleToks).flatten ++ [.EOF])) := by
        simp [ruleToks]
      rw [hsh, parseLinesF_rule_step]
      have hlen : r.2.length ≤ (r.2.map PToken.SYMBOL ++
          PToken.NEWLINE :: ((rest.map ruleToks).flatten ++ [PToken.EOF])).length := by
        simp
      simp only [parseSymbolSequenceF_plain pFloat r.2 _ _ hlen]
      have hne : (List.map (fun c => ({ id := c, params := none } : PSym)) r.2).isEmpty
          = false := by
        cases h2 : r.2 with
        | nil => exact absurd h2 hr
        | cons a b => simp
      rw [hne, if_neg Bool.false_ne_true]
      rw [show probCheck pFloat
          (PToken.NEWLINE :: ((List.map ruleToks rest).flatten ++ [PToken.EOF])) =
          (none, PToken.NEWLINE :: ((List.map ruleToks rest).flatten ++ [PToken.EOF]))
          from rfl]
      rw [show skipNL
          (PToken.NEWLINE :: ((List.map ruleToks rest).flatten ++ [PToken.EOF])) =
          ((List.map ruleToks rest).flatten ++ [PToken.EOF]) from rfl]
      have hf2 : rest.length + 1 ≤ f := by
        simp at hf
        omega
      rw [ih hrest f axm _ hf2 haxm]
      simp [mkPRule, mkPSym]

theorem flattenRuleToks_len (rs : List (Char × List Char)) :
    rs.length ≤ ((rs.map ruleToks).flatten).length := by
  induction rs with
  | nil => simp
  | cons r rest ih =>
    simp only [List.map_cons, List.flatten_cons, List.length_cons,
      List.length_append]
    have : 1 ≤ (ruleToks r).length := by
      simp [ruleToks]
    omega

/-- C5: for every input text consisting of a declaration line `axiom: S`
(the word axiom, a colon, then a nonempty symbol sequence S over the plain
valid alphabet) followed by well-formed rule lines `P -> Q`, `parseGrammar`
succeeds and returns a grammar whose axiom field equals the declared
symbol sequence S (and whose rules are exactly the parsed rule lines). -/
theorem parseGrammar_axiom_preserved (pExpr : List Char → Expression)
    (pFloat : List Char → ℚ) (S : List Char) (rs : List (Char × List Char))
    (hS1 : S ≠ []) (hS : ∀ c ∈ S, plainSym c = true)
    (hrs : ∀ r ∈ rs, plainSym r.1 = true ∧ r.2 ≠ [] ∧
      ∀ c ∈ r.2, plainSym c = true) :
    parseGrammar pExpr pFloat (grammarText S rs) =
      .ok ⟨S.map mkPSym, rs.map mkPRule, []⟩ := by
  have htoks := tokenizeG_grammarText S rs hS
    (fun r hr => ⟨(hrs r hr).1, (hrs r hr).2.2⟩)
  show parseLinesF pExpr pFloat (tokenizeG (grammarText S rs))
      ((tokenizeG (grammarText S rs)).length + 1)
      ((tokenizeG (grammarText S rs)).dropWhile (fun t => t = .NEWLINE)) [] [] [] = _
  rw [htoks]
  have hdw : ((axTokens S ++ ((rs.map ruleToks).flatten ++ [PToken.EOF])).dropWhile
      (fun t => decide (t = PToken.NEWLINE))) =
      axTokens S ++ ((rs.map ruleToks).flatten ++ [PToken.EOF]) := by
    simp [axTokens, List.dropWhile_cons]
  rw [hdw]
  have hsh : axTokens S ++ ((rs.map ruleToks).flatten ++ [PToken.EOF]) =
      PToken.SYMBOL 'a' :: PToken.SYMBOL 'x' :: PToken.SYMBOL 'i' ::
        PToken.SYMBOL 'o' :: PToken.SYMBOL 'm' :: PToken.COLON ::
        (S.map PToken.SYMBOL ++
          PToken.NEWLINE :: ((rs.map ruleToks).flatten ++ [PToken.EOF])) := by
    simp [axTokens]
  rw [hsh, parseLinesF_axiom_step]
  have hlen : S.length ≤ (S.map PToken.SYMBOL ++
      PToken.NEWLINE :: ((rs.map ruleToks).flatten ++ [PToken.EOF])).length := by
    simp
  simp only [parseSymbolSequenceF_plain pFloat S _ _ hlen]
  rw [show skipNL (PToken.NEWLINE :: ((rs.map ruleToks).flatten ++ [PToken.EOF])) =
      ((rs.map ruleToks).flatten ++ [PToken.EOF]) from rfl]
  have hfuel : rs.length + 1 ≤
      (axTokens S ++ ((rs.map ruleToks).flatten ++ [PToken.EOF])).length := by
    have h1 := flattenRuleToks_len rs
    simp only [List.length_append, axTokens, List.length_cons]
    omega
  rw [hsh] at hfuel
  rw [parseLinesF_rules pExpr pFloat _ rs (fun r hr => (hrs r hr).2.1) _ _ []
    hfuel (by simpa using hS1)]
  simp [mkPSym, mkPRule]

/-- Witness for C5 at the concrete text `axiom: F` + `F -> F+F`. -/
theorem parseGrammar_axiom_preserved_witness :
    (['F'] : List Char) ≠ [] ∧
    parseGrammar (fun _ => .num 0) (fun _ => (0 : ℚ))
        (grammarText ['F'] [('F', ['F', '+', 'F'])]) =
      .ok ⟨['F'].map mkPSym, [('F', ['F', '+', 'F'])].map mkPRule, []⟩ :=
  ⟨by decide,
    parseGrammar_axiom_preserved (fun _ => .num 0) (fun _ => (0 : ℚ))
      ['F'] [('F', ['F', '+', 'F'])] (by decide) (by decide) (by decide)⟩
